import Mathlib

/-!
# Verification of the dphon text-reuse pipeline

A shallow embedding of the core algorithms of the `dphon` repository
(grapheme-to-phoneme conversion, n-gram production, the phonetic index,
match extension, the match-list reducer, Smith-Waterman match alignment
and match grouping), together with proofs and refutations of the
specification's claims about them.

Conventions:
* Python `float` similarity scores are modelled as `Rat`.
* Python lists/strings are Lean lists/strings; Python slices are modelled
  by `pySlice`/`pyTakeLast` (which clamp like Python slices do).
* `Levenshtein.ratio` from the python-Levenshtein library is
  `(lensum - dist) / lensum` where `dist` is the edit distance with
  substitution cost 2 and insertion/deletion cost 1; `levDist2` below is
  that distance, computed by the standard dynamic program.
* `while` loops are modelled by fuel-based recursion; the fuel supplied by
  each wrapper is an upper bound on the number of iterations the Python
  loop can make (the loops advance an index towards a document boundary),
  so the embedded function computes the same result as the unbounded loop.
-/

namespace Dphon

/-! ## Python slicing helpers -/

/-- Python `l[s:e]` for non-negative `s`, `e` (clamping, like Python). -/
def pySlice (l : List α) (s e : Nat) : List α := (l.take e).drop s

/-- Python `l[-n:]` for positive `n` (the last `n` elements; all of `l`
when `n ≥ |l|`). -/
def pyTakeLast (n : Nat) (l : List α) : List α := l.drop (l.length - n)

/-! ## Levenshtein ratio (`Levenshtein.ratio`)

The python-Levenshtein `ratio(s, t)` equals `(|s| + |t| - d) / (|s| + |t|)`
where `d` is the minimal cost of edits turning `s` into `t`, with
insertions and deletions costing 1 and substitutions costing 2
(and `ratio("", "") = 1.0`).  `levDist2` computes `d` row by row. -/

/-- One inner step of the distance DP: given the remainder of the previous
row (`prev`, starting at column `j`), the previous row's value at column
`j - 1` (`diag`) and the current row's value at column `j - 1` (`left`),
produce the current row's values from column `j` on. -/
def levRowGo (x : Char) : List Char → List Nat → Nat → Nat → List Nat
  | [], _, _, _ => []
  | y :: ys, prev, diag, left =>
    let cur := min (min (left + 1) (prev.headD 0 + 1)) (diag + (if x = y then 0 else 2))
    cur :: levRowGo x ys prev.tail (prev.headD 0) cur

/-- The DP row for prefix length `i` of the first string, from the row for
prefix length `i - 1`.  Column 0 of row `i` is `i` (deleting `i` chars). -/
def levRow (x : Char) (ys : List Char) (prevRow : List Nat) (i : Nat) : List Nat :=
  i :: levRowGo x ys prevRow.tail (prevRow.headD 0) i

/-- Edit distance with substitution cost 2 (insert/delete cost 1). -/
def levDist2 (xs ys : List Char) : Nat :=
  (xs.foldl
    (fun (st : List Nat × Nat) x => (levRow x ys st.1 (st.2 + 1), st.2 + 1))
    (List.range (ys.length + 1), 0)).1.getLastD 0

/-- `Levenshtein.ratio` on two character sequences. -/
def levRatio (xs ys : List Char) : Rat :=
  let lensum := xs.length + ys.length
  if lensum = 0 then 1
  else mkRat ((lensum : Int) - (levDist2 xs ys : Int)) lensum

/-! ## Tokens and the sound table (`dphon/g2p.py`)

A spaCy `Token` is modelled by its text together with the two lexical
attributes the code reads (`is_alpha`, `like_num`).  The sound table maps
a token text to a stored reading (the JSON reading minus its two trailing
source-metadata slots); `GraphemesToPhonemes._select` keeps slots 3, 6
and 7 (initial, nucleus, coda). -/

structure Token where
  text : String
  isAlpha : Bool
  likeNum : Bool
  deriving DecidableEq, Repr

/-- A stored reading: a tuple of optional phoneme-slot strings. -/
abbrev Reading := List (Option String)

/-- The sound table, in insertion order. -/
abbrev SoundTable := List (String × Reading)

/-- Private-use marker for out-of-vocabulary tokens (`OOV_PHONEMES`). -/
def oovPhonemes : String := "\uE000"

/-- Lookup in the sound table (first matching entry). -/
def tableLookup (tbl : SoundTable) (s : String) : Option Reading :=
  (tbl.find? (fun e => e.1 = s)).map (·.2)

/-- `GraphemesToPhonemes.empty_phonemes`: an all-`None` tuple whose arity
is that of the first table entry. -/
def emptyPhonemes (tbl : SoundTable) : Reading :=
  List.replicate ((tbl.head?.map (·.2.length)).getD 0) none

/-- `GraphemesToPhonemes._select`: keep slots 3, 6 and 7 of a reading. -/
def selectReading (r : Reading) : Reading :=
  [(r.getD 3 none), (r.getD 6 none), (r.getD 7 none)]

/-- `GraphemesToPhonemes.is_token_oov`: no entry in the sound table. -/
def isTokenOOV (tbl : SoundTable) (t : Token) : Bool :=
  (tableLookup tbl t.text).isNone

/-- `GraphemesToPhonemes.get_token_phonemes`. -/
def getTokenPhonemes (tbl : SoundTable) (t : Token) : Reading :=
  if ¬(t.isAlpha || t.likeNum) then emptyPhonemes tbl
  else if isTokenOOV tbl t then [some oovPhonemes]
  else selectReading ((tableLookup tbl t.text).getD [])

/-- `GraphemesToPhonemes.get_all_phonemes`: the flattened phonemes of a
token sequence, skipping `None` and empty entries. -/
def getAllPhonemes (tbl : SoundTable) (toks : List Token) : List String :=
  toks.flatMap (fun t => ((getTokenPhonemes tbl t).filterMap id).filter (· ≠ ""))

/-- `GraphemesToPhonemes.are_graphic_variants` on a non-empty token list
`t0 :: rest` (the Python signature takes one or more tokens). -/
def areGraphicVariants (tbl : SoundTable) (t0 : Token) (rest : List Token) : Bool :=
  let basePhon := getTokenPhonemes tbl t0
  if basePhon = emptyPhonemes tbl ∨ basePhon = [some oovPhonemes] then false
  else rest.all (fun t =>
    let ph := getTokenPhonemes tbl t
    ¬(ph = emptyPhonemes tbl ∨ ph = [some oovPhonemes] ∨ ph ≠ basePhon ∨ t.text = t0.text))

/-! ## Matches (`dphon/match.py`)

The `Match` record used by `extend.py`, `align.py`, `reuse.py` and
`cli.py` (fields `u`, `v`, `utxt`, `vtxt`, `weight`, `au`, `av`; the file
defining it is absent from this snapshot, so the record is modelled from
the spec's data model `{u_id, v_id, u_span, v_span, score, u_aligned,
v_aligned}` and from how the call sites use it).  A spaCy `Span` is a
document reference plus half-open token bounds; here each match carries
its two documents (token lists) and the bounds `us/ue` and `vs/ve`. -/

structure Match where
  u : String
  v : String
  udoc : List Token
  vdoc : List Token
  us : Nat
  ue : Nat
  vs : Nat
  ve : Nat
  weight : Rat := 0
  au : List String := []
  av : List String := []
  deriving DecidableEq, Repr

/-- The tokens of the match's `u` span (`match.utxt`). -/
def Match.utoks (m : Match) : List Token := pySlice m.udoc m.us m.ue

/-- The tokens of the match's `v` span (`match.vtxt`). -/
def Match.vtoks (m : Match) : List Token := pySlice m.vdoc m.vs m.ve

/-! ## The extender (`dphon/extend.py`)

`StringDistanceExtender` is abstract in `_score`; the embedding carries
the score function as data, so theorems about the extension loops hold
for every concrete scorer.  `LevenshteinPhoneticExtender._score` is
`phoneticScore` below. -/

/-- An extender: threshold, length limit, and the `_score` hook.  The
score function receives the two span token lists and the `rev` flag. -/
structure Extender where
  threshold : Rat
  lenLimit : Nat
  score : List Token → List Token → Bool → Rat

/-- `LevenshteinPhoneticExtender._score`: `-1` if either span contains
`OOV_PHONEMES`; otherwise the Levenshtein ratio of the joined phonemes,
sliced to the first (`rev`) or last `lenLimit` characters. -/
def phoneticScore (tbl : SoundTable) (lenLimit : Nat)
    (utoks vtoks : List Token) (rev : Bool) : Rat :=
  if oovPhonemes ∈ getAllPhonemes tbl utoks ∨ oovPhonemes ∈ getAllPhonemes tbl vtoks then
    -1
  else
    let text1 := (String.join (getAllPhonemes tbl utoks)).toList
    let text2 := (String.join (getAllPhonemes tbl vtoks)).toList
    if rev then levRatio (text1.take lenLimit) (text2.take lenLimit)
    else levRatio (pyTakeLast lenLimit text1) (pyTakeLast lenLimit text2)

/-- The score of the spans `[us, ue)` / `[vs, ve)` of `m`'s documents. -/
def scoreAt (E : Extender) (m : Match) (us ue vs ve : Nat) (rev : Bool) : Rat :=
  E.score (pySlice m.udoc us ue) (pySlice m.vdoc vs ve) rev

/-- The `while` loop of `StringDistanceExtender._extend_fwd`, with fuel.
State: current ends `ue`, `ve`, current `score` and `trail`.  Returns the
final `(ue, ve, trail)`.  The wrapper supplies fuel
`|udoc| - ue + 1`, an upper bound on the number of iterations (each
iteration requires `ue < |udoc|` and increments `ue`), so the fueled
recursion computes exactly what the unbounded loop does. -/
def extFwdGo (E : Extender) (m : Match) :
    Nat → Nat → Nat → Rat → Nat → Nat × Nat × Nat
  | 0, ue, ve, _, trail => (ue, ve, trail)
  | fuel + 1, ue, ve, score, trail =>
    if E.threshold ≤ score ∧ ue < m.udoc.length ∧ ve < m.vdoc.length then
      let ns := scoreAt E m m.us (ue + 1) m.vs (ve + 1) false
      extFwdGo E m fuel (ue + 1) (ve + 1) ns (if ns < score then trail + 1 else 0)
    else (ue, ve, trail)

/-- `StringDistanceExtender._extend_fwd`. -/
def extendFwd (E : Extender) (m : Match) : Match :=
  let s0 := scoreAt E m m.us m.ue m.vs m.ve false
  let r := extFwdGo E m (m.udoc.length - m.ue + 1) m.ue m.ve s0 0
  { m with ue := r.1 - r.2.2, ve := r.2.1 - r.2.2, weight := 0, au := [], av := [] }

/-- The `while` loop of `StringDistanceExtender._extend_rev`, with fuel.
State: current starts `us`, `vs`, current `score` and `trail`.  The
wrapper supplies fuel `us + 1` (each iteration requires `0 < us` and
decrements `us`). -/
def extRevGo (E : Extender) (m : Match) :
    Nat → Nat → Nat → Rat → Nat → Nat × Nat × Nat
  | 0, us, vs, _, trail => (us, vs, trail)
  | fuel + 1, us, vs, score, trail =>
    if E.threshold ≤ score ∧ 0 < us ∧ 0 < vs then
      let ns := scoreAt E m (us - 1) m.ue (vs - 1) m.ve true
      extRevGo E m fuel (us - 1) (vs - 1) ns (if ns < score then trail + 1 else 0)
    else (us, vs, trail)

/-- `StringDistanceExtender._extend_rev`. -/
def extendRev (E : Extender) (m : Match) : Match :=
  let s0 := scoreAt E m m.us m.ue m.vs m.ve true
  let r := extRevGo E m (m.us + 1) m.us m.vs s0 0
  { m with us := r.1 + r.2.2, vs := r.2.1 + r.2.2, weight := 0, au := [], av := [] }

/-- `StringDistanceExtender.__call__`: extend in both directions, combine
the bounds, and rescore the combined spans (forward direction). -/
def extendMatch (E : Extender) (m : Match) : Match :=
  let f := extendFwd E m
  let r := extendRev E m
  let score := scoreAt E m r.us f.ue r.vs f.ve false
  { m with us := r.us, ue := f.ue, vs := r.vs, ve := f.ve,
           weight := score, au := [], av := [] }

/-! ## Concrete test corpora

Concrete tokens, documents and sound tables used to evaluate the embedded
functions at specific inputs.  `monoTable` gives every character of a
string a one-character phoneme equal to the character itself (slot 3 of
an 8-slot reading, as `_select` expects). -/

/-- A single-character alphabetic token. -/
def charToken (c : Char) : Token := ⟨String.singleton c, true, false⟩

/-- A document of single-character alphabetic tokens. -/
def mkCharDoc (s : String) : List Token := s.toList.map charToken

/-- A sound table mapping each character of `s` to itself as its only
phoneme (stored in reading slot 3, the initial). -/
def monoTable (s : String) : SoundTable :=
  s.toList.map (fun c =>
    (String.singleton c,
      ([none, none, none, some (String.singleton c), none, none, none, none] : Reading)))

/-- Sound table for the C1 counterexample. -/
def cexC1table : SoundTable := monoTable "pnmkabcdeghjolfi"

/-- The phonetic extender of the C1 counterexample (θ = 7/10, L = 50,
the CLI defaults). -/
def cexC1E : Extender :=
  { threshold := mkRat 7 10, lenLimit := 50, score := phoneticScore cexC1table 50 }

/-- The seed match of the C1 counterexample: identical seeds `abcd` at
`[4, 8)` of two 12-token documents. -/
def cexC1M : Match :=
  { u := "udoc", v := "vdoc", udoc := mkCharDoc "pnmkabcdeghj", vdoc := mkCharDoc "pomlabcdfgij",
    us := 4, ue := 8, vs := 4, ve := 8 }

/-- An extender whose every score is `-1` (its table is empty, so every
alphabetic token is out of vocabulary). -/
def oovE : Extender :=
  { threshold := mkRat 1 2, lenLimit := 50, score := phoneticScore [] 50 }

/-- A match on two-token documents whose tokens are all OOV under `oovE`. -/
def oovM : Match :=
  { u := "udoc", v := "vdoc", udoc := mkCharDoc "xy", vdoc := mkCharDoc "xy",
    us := 0, ue := 1, vs := 0, ve := 1 }

/-! ## Further definitions used by the claims about g2p, n-grams and OOV -/

/-- The private-use character of `OOV_PHONEMES`. -/
def oovChar : Char := '\uE000'

/-- The characters scored by `LevenshteinPhoneticExtender._score`: the
first `L` characters of the span's joined phonemes when extending
backward, the last `L` when extending forward. -/
def windowChars (tbl : SoundTable) (L : Nat) (toks : List Token) (rev : Bool) : List Char :=
  if rev then (String.join (getAllPhonemes tbl toks)).toList.take L
  else pyTakeLast L (String.join (getAllPhonemes tbl toks)).toList

/-- The claim's reading of `are_graphic_variants` (C7), written from the
spec's words: every token has a table entry (none OOV, none non-voiced),
all share one phoneme tuple, and the surface texts are not all
identical. -/
def specGraphicVariants (tbl : SoundTable) (t0 : Token) (rest : List Token) : Bool :=
  ((t0 :: rest).all fun t =>
    !decide (getTokenPhonemes tbl t = emptyPhonemes tbl) &&
    !decide (getTokenPhonemes tbl t = [some oovPhonemes])) &&
  ((t0 :: rest).all fun t => decide (getTokenPhonemes tbl t = getTokenPhonemes tbl t0)) &&
  !((t0 :: rest).all fun t => decide (t.text = t0.text))

/-- `Ngrams.get_doc_ngrams` (`dphon/ngrams.py`): nothing for an empty
doc, otherwise the spans `doc[i : i+n]` for
`i ∈ range(max(len(doc) - n + 1, 1))`. -/
def getDocNgrams (doc : List Token) (n : Nat) : List (List Token) :=
  if doc.length = 0 then []
  else (List.range (max (doc.length - n + 1) 1)).map (fun i => pySlice doc i (i + n))

/-- Sound table for the C6 witness: only `a` and `b` are known. -/
def witC6tbl : SoundTable := monoTable "ab"

/-- A match whose spans `ax` contain the OOV token `x` (C6 witness). -/
def witC6M : Match :=
  { u := "udoc", v := "vdoc", udoc := mkCharDoc "axb", vdoc := mkCharDoc "axb",
    us := 0, ue := 2, vs := 0, ve := 2 }

/-- Sound table for the C7 counterexample: `a` and `b` share the same
phoneme tuple. -/
def cexC7tbl : SoundTable :=
  [("a", ([none, none, none, some "p", none, none, none, none] : Reading)),
   ("b", ([none, none, none, some "p", none, none, none, none] : Reading))]

/-- The two-token document of the C8 counterexample. -/
def cexC8doc : List Token := mkCharDoc "xy"

/-! ## The Smith-Waterman aligner (`dphon/align.py`)

`sw_align` itself is the external `lingpy` routine; the embedding takes
its result as data: the non-aligned affixes `lu/ru`, `lv/rv`, the aligned
centers `cu/cv` (with `"-"` for gaps) and the raw score.  What is
embedded is everything `SmithWatermanAligner.__call__` does with that
result.  Operations that would raise in Python (indexing an empty or
exhausted list, i.e. `cu[i]`, `utxt[u_ptr]`, `au[-1]`, `au[0]`) make the
embedded function return `none`. -/

structure SWResult where
  lu : List String
  cu : List String
  ru : List String
  lv : List String
  cv : List String
  rv : List String
  score : Rat

/-- `q / k` for a natural `k`, computed through `mkRat` (equal to rational
division; division by zero gives zero, but the call site is reached only
with `k > 0`). -/
def ratDivNat (q : Rat) (k : Nat) : Rat := mkRat q.num (q.den * k)

/-- The `for i in range(max(len(utxt), len(vtxt)))` loop constructing the
aligned token-text sequences: `count` is the number of remaining
iterations (the wrapper passes the exact Python iteration count), `i` the
current index, `up`/`vp` the two token pointers.  Out-of-range access to
`cu`/`cv` or to the token lists is an IndexError, i.e. `none`. -/
def alignBuildGo (gap : String) (cu cv : List String) (utoks vtoks : List Token) :
    Nat → Nat → Nat → Nat → Option (List String × List String)
  | 0, _, _, _ => some ([], [])
  | count + 1, i, up, vp => do
    let cui ← cu.get? i
    let cvi ← cv.get? i
    let (a, up') ← if cui ≠ "-" then (utoks.get? up).map (fun t => (t.text, up + 1))
                   else some (gap, up)
    let (b, vp') ← if cvi ≠ "-" then (vtoks.get? vp).map (fun t => (t.text, vp + 1))
                   else some (gap, vp)
    let (au, av) ← alignBuildGo gap cu cv utoks vtoks count (i + 1) up' vp'
    some (a :: au, b :: av)

/-- The first trimming loop: while the last element of `au` or of `av` is
not alphanumeric, drop the last element of the spans (bounds clamped the
way spaCy span slicing clamps) and of both aligned lists.  `au[-1]` or
`av[-1]` on an empty list is an IndexError (`none`).  Fuel `|au| + 1`
suffices: every iteration shortens `au`, and the guard on an empty `au`
errors out. -/
def trimEndGo (alnum : String → Bool) :
    Nat → Nat → Nat → Nat → Nat → List String → List String →
    Option (Nat × Nat × Nat × Nat × List String × List String)
  | 0, _, _, _, _, _, _ => none
  | fuel + 1, us, ue, vs, ve, au, av =>
    match au.getLast? with
    | none => none
    | some a =>
      if ¬ alnum a then
        trimEndGo alnum fuel us (if us < ue then ue - 1 else ue)
          vs (if vs < ve then ve - 1 else ve) au.dropLast av.dropLast
      else
        match av.getLast? with
        | none => none
        | some b =>
          if ¬ alnum b then
            trimEndGo alnum fuel us (if us < ue then ue - 1 else ue)
              vs (if vs < ve then ve - 1 else ve) au.dropLast av.dropLast
          else some (us, ue, vs, ve, au, av)

/-- The second trimming loop, on the front ends. -/
def trimFrontGo (alnum : String → Bool) :
    Nat → Nat → Nat → Nat → Nat → List String → List String →
    Option (Nat × Nat × Nat × Nat × List String × List String)
  | 0, _, _, _, _, _, _ => none
  | fuel + 1, us, ue, vs, ve, au, av =>
    match au.head? with
    | none => none
    | some a =>
      if ¬ alnum a then
        trimFrontGo alnum fuel (if us < ue then us + 1 else us) ue
          (if vs < ve then vs + 1 else vs) ve au.tail av.tail
      else
        match av.head? with
        | none => none
        | some b =>
          if ¬ alnum b then
            trimFrontGo alnum fuel (if us < ue then us + 1 else us) ue
              (if vs < ve then vs + 1 else vs) ve au.tail av.tail
          else some (us, ue, vs, ve, au, av)

/-- `SmithWatermanAligner.__call__`, given the result of `sw_align`.
`alnum` is Python's `str.isalnum` (a parameter because it is a Unicode
property of the token texts). -/
def swAlignMatch (alnum : String → Bool) (gap : String) (res : SWResult) (m : Match) :
    Option Match :=
  let us := m.us + res.lu.length
  let vs := m.vs + res.lv.length
  let ue := min (us + res.cu.length) m.udoc.length
  let ve := min (vs + res.cv.length) m.vdoc.length
  let utoks := pySlice m.udoc us (us + res.cu.length)
  let vtoks := pySlice m.vdoc vs (vs + res.cv.length)
  match alignBuildGo gap res.cu res.cv utoks vtoks (max utoks.length vtoks.length) 0 0 0 with
  | none => none
  | some (au, av) =>
    match trimEndGo alnum (au.length + 1) us ue vs ve au av with
    | none => none
    | some (us1, ue1, vs1, ve1, au1, av1) =>
      match trimFrontGo alnum (au1.length + 1) us1 ue1 vs1 ve1 au1 av1 with
      | none => none
      | some (us2, ue2, vs2, ve2, au2, av2) =>
        some { m with us := us2, ue := ue2, vs := vs2, ve := ve2,
                      weight := ratDivNat res.score (max au2.length av2.length),
                      au := au2, av := av2 }

/-- Python `str.isalnum` restricted to ASCII (a concrete instance of the
`alnum` parameter, used for concrete inputs). -/
def asciiAlnum (s : String) : Bool := !s.isEmpty && s.toList.all (·.isAlphanum)

/-- An `sw_align` result with no positive-scoring region: empty aligned
centers and raw score 0. -/
def emptySW : SWResult := { lu := [], cu := [], ru := [], lv := [], cv := [], rv := [], score := 0 }

/-- A concrete match for the C5 counterexample. -/
def cexC5M : Match :=
  { u := "udoc", v := "vdoc", udoc := mkCharDoc "ab", vdoc := mkCharDoc "cd",
    us := 0, ue := 2, vs := 0, ve := 2 }

/-! ## The phonetic index (`dphon/index.py`)

`NgramPhonemesLookupsIndex` stores, for each document n-gram that passes
the admission test (`ngram.text.isalpha()` and no `OOV_PHONEMES` among
its phonemes), the n-gram span in the bucket of its phoneme-string key.
Spans are modelled by their `(start, end)` bounds; the lookups table by
an insertion-ordered association list.  `A` is Python's per-character
`str.isalpha` predicate (a Unicode property, hence a parameter). -/

/-- The n-gram spans of a document, with ends clamped to the document
length (as spaCy `doc[i : i+n]` clamps). -/
def docNgramSpans (doc : List Token) (n : Nat) : List (Nat × Nat) :=
  if doc.length = 0 then []
  else (List.range (max (doc.length - n + 1) 1)).map (fun i => (i, min (i + n) doc.length))

/-- The tokens of a span. -/
def spanToks (doc : List Token) (sp : Nat × Nat) : List Token := pySlice doc sp.1 sp.2

/-- Python `str.isalpha` with per-character oracle `A`: non-empty and all
characters alphabetic. -/
def pyStrIsAlpha (A : Char → Bool) (s : String) : Bool := !(s == "") && s.toList.all A

/-- The text of a span (concatenated token texts; the corpus loader
strips all whitespace, so spans have no inter-token whitespace). -/
def spanText (doc : List Token) (sp : Nat × Nat) : String :=
  String.join ((spanToks doc sp).map (·.text))

/-- `NgramPhonemesLookupsIndex._get_vals`: the admitted n-grams. -/
def getVals (A : Char → Bool) (tbl : SoundTable) (doc : List Token) (n : Nat) :
    List (Nat × Nat) :=
  (docNgramSpans doc n).filter (fun sp =>
    pyStrIsAlpha A (spanText doc sp) &&
      !(decide (oovPhonemes ∈ getAllPhonemes tbl (spanToks doc sp))))

/-- `NgramPhonemesLookupsIndex._get_key`: the joined phonemes of a span. -/
def getKey (tbl : SoundTable) (doc : List Token) (sp : Nat × Nat) : String :=
  String.join (getAllPhonemes tbl (spanToks doc sp))

/-- The index: phoneme key → bucket of spans, in insertion order. -/
abbrev PhonIndex := List (String × List (Nat × Nat))

/-- Appending a value to its key's bucket (creating the bucket at the end
on a fresh key), as `LookupsIndex.__call__` does. -/
def idxInsert (idx : PhonIndex) (k : String) (v : Nat × Nat) : PhonIndex :=
  if (idx.find? (fun e => e.1 == k)).isSome then
    idx.map (fun e => if e.1 == k then (e.1, e.2 ++ [v]) else e)
  else idx ++ [(k, [v])]

/-- `LookupsIndex.__call__` on one document: index every admitted n-gram
under its phoneme key. -/
def indexDoc (A : Char → Bool) (tbl : SoundTable) (n : Nat) (idx : PhonIndex)
    (doc : List Token) : PhonIndex :=
  (getVals A tbl doc n).foldl (fun ix sp => idxInsert ix (getKey tbl doc sp) sp) idx

/-- A span is stored somewhere in the index. -/
def StoredUnder (idx : PhonIndex) (v : Nat × Nat) : Prop := ∃ e ∈ idx, v ∈ e.2

/-- A span is stored in the bucket of key `k`. -/
def StoredWithKey (idx : PhonIndex) (v : Nat × Nat) (k : String) : Prop :=
  ∃ vs, (k, vs) ∈ idx ∧ v ∈ vs

/-- Table and document for the C9 witness. -/
def witC9tbl : SoundTable := monoTable "a"

/-- A two-token document `ab` whose second token is OOV under
`witC9tbl`. -/
def witC9doc : List Token := mkCharDoc "ab"

/-! ## Match grouping (`dphon/reuse.py`)

`MatchGraph.group()` buckets matches by their exact endpoint bounds
`(doc id, start, end)`, turns multi-member buckets into cliques, takes
connected components, and wraps each component (and each singleton
bucket) in a `MatchGroup`.  `MatchGroup.__init__` sorts and de-duplicates
its matches, collects the `(span, aligned text)` pairs of both endpoints
of every member into a set, sorts them by aligned text, and anchors the
group on the first.  Python sets are modelled by insertion-ordered
de-duplicated lists; where the code's behaviour genuinely depends on the
set iteration order (the order of `list(groups)`, claim C4), that order
is an explicit permutation parameter. -/

/-- The `u` endpoint key `(match.u, utxt.start, utxt.end)`. -/
def uKey (m : Match) : String × Nat × Nat := (m.u, m.us, m.ue)

/-- The `v` endpoint key `(match.v, vtxt.start, vtxt.end)`. -/
def vKey (m : Match) : String × Nat × Nat := (m.v, m.vs, m.ve)

/-- De-duplication keeping first occurrences (the content of a Python
set, in a canonical order). -/
def dedupKeepFirst [DecidableEq α] (l : List α) : List α :=
  l.foldl (fun acc x => if x ∈ acc then acc else acc ++ [x]) []

/-- Stable insertion into a sorted list: `x` goes before the first
element it is ≤ to, hence after any earlier-arrived equal element. -/
def insertLe (le : α → α → Bool) (x : α) : List α → List α
  | [] => [x]
  | y :: ys => if le x y then x :: y :: ys else y :: insertLe le x ys

/-- Stable insertion sort (Python's `sorted` is a stable sort; any two
stable sorts under the same total preorder agree). -/
def isortLe (le : α → α → Bool) : List α → List α
  | [] => []
  | x :: xs => insertLe le x (isortLe le xs)

/-- Code-point lexicographic comparison of character lists (Python's
string `<`). -/
def charListLt : List Char → List Char → Bool
  | [], [] => false
  | [], _ :: _ => true
  | _ :: _, [] => false
  | a :: as, b :: bs =>
    if a.toNat < b.toNat then true
    else if b.toNat < a.toNat then false
    else charListLt as bs

/-- Python string `<` (code-point lexicographic). -/
def strLt (a b : String) : Bool := charListLt a.toList b.toList

/-- Python string `<=`. -/
def strLe (a b : String) : Bool := !(strLt b a)

/-- The `Match` sort order: lexicographic on
`(u, v, u.start, u.end, v.start, v.end, weight)` (document pair first,
then span positions — spec §4.6 — then score; the final `au`/`av`
tie-breaks of the tuple comparison are not modelled). -/
def matchLe (a b : Match) : Bool :=
  if a.u ≠ b.u then strLt a.u b.u
  else if a.v ≠ b.v then strLt a.v b.v
  else if a.us ≠ b.us then decide (a.us < b.us)
  else if a.ue ≠ b.ue then decide (a.ue < b.ue)
  else if a.vs ≠ b.vs then decide (a.vs < b.vs)
  else if a.ve ≠ b.ve then decide (a.ve < b.ve)
  else decide (a.weight ≤ b.weight)

/-- Order on `(span key, aligned text)` endpoint pairs: by aligned text
(the `key=lambda x: x[1]` of `MatchGroup.__init__`). -/
def epLe (a b : (String × Nat × Nat) × String) : Bool := strLe a.2 b.2

structure MatchGroup where
  members : List Match
  spans : List ((String × Nat × Nat) × String)
  anchorDoc : String
  anchorStart : Nat
  anchorEnd : Nat
  anchorAlignment : String
  deriving DecidableEq, Repr

/-- The two `(span key, aligned text)` endpoint pairs of a match. -/
def matchEps (m : Match) : List ((String × Nat × Nat) × String) :=
  [((m.u, m.us, m.ue), String.join m.au), ((m.v, m.vs, m.ve), String.join m.av)]

/-- `MatchGroup.__init__`. -/
def mkMatchGroup (ms : List Match) : MatchGroup :=
  let members := isortLe matchLe (dedupKeepFirst ms)
  let spans := isortLe epLe (dedupKeepFirst (members.flatMap matchEps))
  let anchor := spans.headD (("", 0, 0), "")
  { members := members, spans := spans,
    anchorDoc := anchor.1.1, anchorStart := anchor.1.2.1, anchorEnd := anchor.1.2.2,
    anchorAlignment := anchor.2 }

/-- Add a match to the bucket of one of its endpoint keys (set
semantics inside the bucket; buckets in key insertion order). -/
def bucketAdd (bs : List ((String × Nat × Nat) × List Match)) (k : String × Nat × Nat)
    (m : Match) : List ((String × Nat × Nat) × List Match) :=
  if (bs.find? (fun e => e.1 == k)).isSome then
    bs.map (fun e => if e.1 == k then (e.1, if m ∈ e.2 then e.2 else e.2 ++ [m]) else e)
  else bs ++ [(k, [m])]

/-- `bounds_to_matches`: every match is filed under both endpoints. -/
def boundsToMatches (ms : List Match) : List ((String × Nat × Nat) × List Match) :=
  ms.foldl (fun bs m => bucketAdd (bucketAdd bs (uKey m) m) (vKey m) m) []

/-- Merge one clique into the running components: all components meeting
it fuse with it. -/
def mergeStep (comps : List (List Match)) (s : List Match) : List (List Match) :=
  let touched := comps.filter (fun c => c.any (fun m => decide (m ∈ s)))
  let rest := comps.filter (fun c => !(c.any (fun m => decide (m ∈ s))))
  (touched.foldl (· ++ ·) s) :: rest

/-- Connected components of the union of cliques. -/
def componentsOf (buckets : List (List Match)) : List (List Match) :=
  buckets.foldl mergeStep []

/-- `MatchGraph.group()`: singleton buckets become their own groups,
multi-member buckets form cliques whose connected components become
groups; the resulting set of groups, de-duplicated. -/
def groupsOf (ms : List Match) : List MatchGroup :=
  let buckets := boundsToMatches ms
  let singles := (buckets.filter (fun e => e.2.length == 1)).map (fun e => mkMatchGroup e.2)
  let multis := (buckets.filter (fun e => decide (2 ≤ e.2.length))).map (·.2)
  let comps := componentsOf multis
  dedupKeepFirst (singles ++ comps.map mkMatchGroup)

/-- Reading a list out in the order given by an index sequence (models
iterating a Python set whose order the runtime chooses). -/
def applyPerm (π : List Nat) (l : List α) : List α := π.filterMap l.get?

/-- The index sequence is a permutation of all positions. -/
abbrev ValidPerm (π : List Nat) (n : Nat) : Prop := π.Perm (List.range n)

/-- The grouped output of one run: `list(groups)` in the set order the
runtime happened to produce. -/
def groupedOutput (ms : List Match) (π : List Nat) : List MatchGroup :=
  applyPerm π (groupsOf ms)

/-- First match of the C3 counterexample: endpoints `A = (d1,0,4)` and
`B = (d2,0,4)`, aligned texts `a` and `b`. -/
def cexC3m1 : Match :=
  { u := "d1", v := "d2", udoc := [], vdoc := [], us := 0, ue := 4, vs := 0, ve := 4,
    weight := 1, au := ["a"], av := ["b"] }

/-- Second match of the C3 counterexample: endpoints `B = (d2,0,4)` and
`C = (d3,5,9)`, aligned texts `b` and `c`; shares `B` with `cexC3m1`. -/
def cexC3m2 : Match :=
  { u := "d2", v := "d3", udoc := [], vdoc := [], us := 0, ue := 4, vs := 5, ve := 9,
    weight := 1, au := ["b"], av := ["c"] }

def cexC3ms : List Match := [cexC3m1, cexC3m2]

/-- The two-member group produced for the shared bound `B`. -/
def cexC3g : MatchGroup := mkMatchGroup [cexC3m1, cexC3m2]

/-! ## The match-list reducer (`extend_matches` in `dphon/extend.py`)

`extend_matches` sorts the matches, then pops them in ascending order
maintaining a `working` queue and a `done` list: a match starting at or
after the U-end of `working[0]` flushes the queue and starts a new one
with the extended match; a match whose V-range is inside some working
match's V-range is skipped; otherwise it is extended and appended to the
queue.  `reversed(sorted(t))` + `pop()` is processing the sorted list
front to back. -/

def extendMatchesGo (ext : Match → Match) :
    List Match → List Match → List Match → List Match
  | [], working, done => done ++ working
  | cur :: rest, working, done =>
    match working with
    | [] => extendMatchesGo ext rest [ext cur] done
    | w0 :: _ =>
      if w0.ue ≤ cur.us then
        extendMatchesGo ext rest [ext cur] (done ++ working)
      else if working.any (fun w =>
          decide (w.vs ≤ cur.vs) && decide (cur.vs ≤ w.ve) && decide (cur.ve ≤ w.ve)) then
        extendMatchesGo ext rest working done
      else
        extendMatchesGo ext rest (working ++ [ext cur]) done

/-- `extend_matches(matches, extend)`. -/
def extendMatches (ext : Match → Match) (ms : List Match) : List Match :=
  extendMatchesGo ext (isortLe matchLe ms) [] []

/-- Sound table for the C2 counterexample. -/
def cexC2tbl : SoundTable := monoTable "pqabxym"

/-- The phonetic extender of the C2 counterexample (θ = 7/10, L = 50). -/
def cexC2E : Extender :=
  { threshold := mkRat 7 10, lenLimit := 50, score := phoneticScore cexC2tbl 50 }

/-- Seed `ab @ [2,4)` of the documents `pqabxm` / `pqabym` (seed weight
1.0, as the CLI seeds them). -/
def cexC2M : Match :=
  { u := "udoc", v := "vdoc", udoc := mkCharDoc "pqabxm", vdoc := mkCharDoc "pqabym",
    us := 2, ue := 4, vs := 2, ve := 4, weight := 1 }

/-- A one-token match used to witness reducer idempotence under a
span-preserving idempotent extender. -/
def witC2m : Match :=
  { u := "a", v := "b", udoc := [charToken 'x'], vdoc := [charToken 'x'],
    us := 0, ue := 1, vs := 0, ve := 1, weight := 1 }

/-! ## Predicates for the reducer proofs -/

/-- Both matches of one document pair. -/
def samePair (U V : String) (m : Match) : Prop := m.u = U ∧ m.v = V

/-- Non-empty spans on both sides. -/
def neSpans (m : Match) : Prop := m.us < m.ue ∧ m.vs < m.ve

/-- Strict lexicographic order on the span bounds
`(us, ue, vs, ve)`. -/
def spanLt (a b : Match) : Prop :=
  a.us < b.us ∨ (a.us = b.us ∧ (a.ue < b.ue ∨ (a.ue = b.ue ∧
    (a.vs < b.vs ∨ (a.vs = b.vs ∧ a.ve < b.ve)))))

/-- Equal span bounds. -/
def spanEq (a b : Match) : Prop :=
  a.us = b.us ∧ a.ue = b.ue ∧ a.vs = b.vs ∧ a.ve = b.ve

/-- Non-strict span order. -/
def spanLe (a b : Match) : Prop := spanLt a b ∨ spanEq a b

/-- What `matchLe` means on matches of one document pair. -/
def MLe (a b : Match) : Prop := spanLt a b ∨ (spanEq a b ∧ a.weight ≤ b.weight)

/-- The reducer's skip test: `c`'s V-range is internal to `w`'s. -/
def containsVC (w c : Match) : Prop := w.vs ≤ c.vs ∧ c.vs ≤ w.ve ∧ c.ve ≤ w.ve

/-- A placeholder match (for head defaults). -/
def dummyMatch : Match :=
  { u := "", v := "", udoc := [], vdoc := [], us := 0, ue := 0, vs := 0, ve := 0 }

/-- The U-start of the first match of a queue. -/
def headUs (l : List Match) : Nat := (l.headD dummyMatch).us

/-- The U-end of the first match of a queue. -/
def headUe (l : List Match) : Nat := (l.headD dummyMatch).ue

/-- A valid working block, as the reducer builds them: non-empty, all
members fixed points of the extender, every later member overlapping the
head in U (its U-start is before the head's U-end), and no member's
V-range internal to an earlier member's. -/
def BlockOk (ext : Match → Match) : List Match → Prop
  | [] => False
  | w0 :: ws => (∀ x ∈ w0 :: ws, ext x = x) ∧ (∀ x ∈ ws, x.us < w0.ue) ∧
      List.Pairwise (fun a b => ¬ containsVC a b) (w0 :: ws)

/-- A valid sequence of flushed blocks: each block valid, and each next
block's head starting at or after the previous block's head's U-end
(the flush condition). -/
def ChainOk (ext : Match → Match) (bs : List (List Match)) : Prop :=
  (∀ b ∈ bs, BlockOk ext b) ∧ List.Chain' (fun b c => headUe b ≤ headUs c) bs

/-- The extender preserves document ids and span bounds. -/
def SpanPreserving (ext : Match → Match) : Prop :=
  ∀ m, (ext m).u = m.u ∧ (ext m).v = m.v ∧ (ext m).us = m.us ∧ (ext m).ue = m.ue ∧
    (ext m).vs = m.vs ∧ (ext m).ve = m.ve

/-! ## Invariants of the extension loops -/

/-- Invariant of the forward extension loop: the trimmed-back position
`(ue - trail, ve - trail)` never precedes the seed, and it either scores
at least the threshold or is exactly the seed. -/
def FwdInv (E : Extender) (m : Match) (ue ve trail : Nat) : Prop :=
  m.ue + trail ≤ ue ∧ m.ve + trail ≤ ve ∧
    (E.threshold ≤ scoreAt E m m.us (ue - trail) m.vs (ve - trail) false ∨
      (ue - trail = m.ue ∧ ve - trail = m.ve))

/-- Invariant of the backward extension loop: the trimmed-back position
`(us + trail, vs + trail)` never exceeds the seed, and it either scores
at least the threshold or is exactly the seed. -/
def RevInv (E : Extender) (m : Match) (us vs trail : Nat) : Prop :=
  us + trail ≤ m.us ∧ vs + trail ≤ m.vs ∧
    (E.threshold ≤ scoreAt E m (us + trail) m.ue (vs + trail) m.ve true ∨
      (us + trail = m.us ∧ vs + trail = m.vs))

theorem extFwdGo_inv (E : Extender) (m : Match) :
    ∀ (fuel ue ve : Nat) (score : Rat) (trail : Nat),
      score = scoreAt E m m.us ue m.vs ve false →
      FwdInv E m ue ve trail →
      FwdInv E m (extFwdGo E m fuel ue ve score trail).1
        (extFwdGo E m fuel ue ve score trail).2.1
        (extFwdGo E m fuel ue ve score trail).2.2 := by
  intro fuel
  induction fuel with
  | zero => intro ue ve score trail _ hinv; simpa [extFwdGo] using hinv
  | succ n ih =>
    intro ue ve score trail hs hinv
    simp only [extFwdGo]
    by_cases hg : E.threshold ≤ score ∧ ue < m.udoc.length ∧ ve < m.vdoc.length
    · rw [if_pos hg]
      apply ih _ _ _ _ rfl
      obtain ⟨h1, h2, h3⟩ := hinv
      by_cases hlt : scoreAt E m m.us (ue + 1) m.vs (ve + 1) false < score
      · rw [if_pos hlt]
        refine ⟨by omega, by omega, ?_⟩
        simpa [Nat.succ_sub_succ] using h3
      · rw [if_neg hlt]
        refine ⟨by omega, by omega, Or.inl ?_⟩
        simpa using le_trans hg.1 (le_of_not_lt (hs ▸ hlt))
    · rw [if_neg hg]; exact hinv

theorem extRevGo_inv (E : Extender) (m : Match) :
    ∀ (fuel us vs : Nat) (score : Rat) (trail : Nat),
      score = scoreAt E m us m.ue vs m.ve true →
      RevInv E m us vs trail →
      RevInv E m (extRevGo E m fuel us vs score trail).1
        (extRevGo E m fuel us vs score trail).2.1
        (extRevGo E m fuel us vs score trail).2.2 := by
  intro fuel
  induction fuel with
  | zero => intro us vs score trail _ hinv; simpa [extRevGo] using hinv
  | succ n ih =>
    intro us vs score trail hs hinv
    simp only [extRevGo]
    by_cases hg : E.threshold ≤ score ∧ 0 < us ∧ 0 < vs
    · rw [if_pos hg]
      apply ih _ _ _ _ rfl
      obtain ⟨h1, h2, h3⟩ := hinv
      have hu := hg.2.1
      have hv := hg.2.2
      by_cases hlt : scoreAt E m (us - 1) m.ue (vs - 1) m.ve true < score
      · rw [if_pos hlt]
        have eu : us - 1 + (trail + 1) = us + trail := by omega
        have ev : vs - 1 + (trail + 1) = vs + trail := by omega
        exact ⟨by omega, by omega, by rw [eu, ev]; exact h3⟩
      · rw [if_neg hlt]
        refine ⟨by omega, by omega, Or.inl ?_⟩
        simpa using le_trans hg.1 (le_of_not_lt (hs ▸ hlt))
    · rw [if_neg hg]; exact hinv

/-- The forward pass keeps the start bounds and the documents. -/
theorem extendFwd_fixed (E : Extender) (m : Match) :
    (extendFwd E m).us = m.us ∧ (extendFwd E m).vs = m.vs ∧
      (extendFwd E m).udoc = m.udoc ∧ (extendFwd E m).vdoc = m.vdoc := by
  simp [extendFwd]

/-- What the forward pass guarantees about its result bounds. -/
theorem extendFwd_spec (E : Extender) (m : Match) :
    m.ue ≤ (extendFwd E m).ue ∧ m.ve ≤ (extendFwd E m).ve ∧
      (E.threshold ≤ scoreAt E m m.us (extendFwd E m).ue m.vs (extendFwd E m).ve false ∨
        ((extendFwd E m).ue = m.ue ∧ (extendFwd E m).ve = m.ve)) := by
  have h := extFwdGo_inv E m (m.udoc.length - m.ue + 1) m.ue m.ve
    (scoreAt E m m.us m.ue m.vs m.ve false) 0 rfl
    ⟨by omega, by omega, Or.inr ⟨by omega, by omega⟩⟩
  obtain ⟨h1, h2, h3⟩ := h
  simp only [extendFwd]
  exact ⟨by omega, by omega, h3⟩

/-- What the backward pass guarantees about its result bounds. -/
theorem extendRev_spec (E : Extender) (m : Match) :
    (extendRev E m).us ≤ m.us ∧ (extendRev E m).vs ≤ m.vs ∧
      (E.threshold ≤ scoreAt E m (extendRev E m).us m.ue (extendRev E m).vs m.ve true ∨
        ((extendRev E m).us = m.us ∧ (extendRev E m).vs = m.vs)) := by
  have h := extRevGo_inv E m (m.us + 1) m.us m.vs
    (scoreAt E m m.us m.ue m.vs m.ve true) 0 rfl
    ⟨by omega, by omega, Or.inr ⟨by omega, by omega⟩⟩
  obtain ⟨h1, h2, h3⟩ := h
  simp only [extendRev]
  exact ⟨by omega, by omega, h3⟩

/-- If the entry score is below the threshold, the forward loop exits at
once (the supplied fuel is always a successor). -/
theorem extFwdGo_stop (E : Extender) (m : Match) (fuel ue ve : Nat) (score : Rat)
    (trail : Nat) (h : ¬ E.threshold ≤ score) :
    extFwdGo E m (fuel + 1) ue ve score trail = (ue, ve, trail) := by
  simp only [extFwdGo]
  rw [if_neg (fun hc => h hc.1)]

/-- If the entry score is below the threshold, the backward loop exits at
once. -/
theorem extRevGo_stop (E : Extender) (m : Match) (fuel us vs : Nat) (score : Rat)
    (trail : Nat) (h : ¬ E.threshold ≤ score) :
    extRevGo E m (fuel + 1) us vs score trail = (us, vs, trail) := by
  simp only [extRevGo]
  rw [if_neg (fun hc => h hc.1)]

/-! ## Claim C1 -/

set_option maxRecDepth 400000

/-- C1 (counterexample).  The claim states that every extended match has
score ≥ θ or the extender took no growth step in either direction.  For
the phonetic extender with θ = 7/10 and L = 50 on the seed `abcd @ [4,8)`
of the documents `pnmkabcdeghj` / `pomlabcdfgij`, both directional passes
grow the spans (to `[0,12)` on both sides), yet the final score — which
`__call__` recomputes over the combined spans — is 2/3 < 7/10. -/
theorem extendMatch_threshold_cex :
    (extendMatch cexC1E cexC1M).weight < cexC1E.threshold ∧
    (extendMatch cexC1E cexC1M).us ≠ cexC1M.us ∧
    (extendMatch cexC1E cexC1M).ue ≠ cexC1M.ue ∧
    (extendMatch cexC1E cexC1M).weight = mkRat 2 3 := by decide

/-- C1 (amended).  Each directional pass of `StringDistanceExtender`
returns spans that score at least the threshold in that direction, or
returns its input spans unchanged; the final score recomputed by
`__call__` over the combined spans can still fall below the threshold. -/
theorem extender_directional_threshold (E : Extender) (m : Match) :
    (E.threshold ≤ scoreAt E m m.us (extendFwd E m).ue m.vs (extendFwd E m).ve false ∨
      ((extendFwd E m).ue = m.ue ∧ (extendFwd E m).ve = m.ve)) ∧
    (E.threshold ≤ scoreAt E m (extendRev E m).us m.ue (extendRev E m).vs m.ve true ∨
      ((extendRev E m).us = m.us ∧ (extendRev E m).vs = m.vs)) :=
  ⟨(extendFwd_spec E m).2.2, (extendRev_spec E m).2.2⟩

/-! ## Claim C10 -/

/-- C10.  Extension never shrinks a match: the extended match's spans
contain the input spans on both sides, and if the seed scores below the
threshold in both directions the spans are returned unchanged. -/
theorem extendMatch_never_shrinks (E : Extender) (m : Match) :
    (extendMatch E m).us ≤ m.us ∧ m.ue ≤ (extendMatch E m).ue ∧
    (extendMatch E m).vs ≤ m.vs ∧ m.ve ≤ (extendMatch E m).ve ∧
    (scoreAt E m m.us m.ue m.vs m.ve false < E.threshold →
      scoreAt E m m.us m.ue m.vs m.ve true < E.threshold →
      ((extendMatch E m).us = m.us ∧ (extendMatch E m).ue = m.ue ∧
        (extendMatch E m).vs = m.vs ∧ (extendMatch E m).ve = m.ve)) := by
  have hf := extendFwd_spec E m
  have hr := extendRev_spec E m
  refine ⟨hr.1, hf.1, hr.2.1, hf.2.1, ?_⟩
  intro h1 h2
  have e1 : extendFwd E m = { m with ue := m.ue, ve := m.ve, weight := 0, au := [], av := [] } := by
    simp only [extendFwd, extFwdGo_stop E m _ _ _ _ _ (not_le_of_lt h1), Nat.sub_zero]
  have e2 : extendRev E m = { m with us := m.us, vs := m.vs, weight := 0, au := [], av := [] } := by
    simp only [extendRev, extRevGo_stop E m _ _ _ _ _ (not_le_of_lt h2), Nat.add_zero]
  refine ⟨?_, ?_, ?_, ?_⟩ <;>
    simp only [extendMatch, e1, e2]

/-- C10 (witness): with an all-OOV table every score is `-1`, which is
below the threshold in both directions, so the spans come back
unchanged. -/
theorem extendMatch_never_shrinks_witness :
    (extendMatch oovE oovM).us = oovM.us ∧ (extendMatch oovE oovM).ue = oovM.ue ∧
    (extendMatch oovE oovM).vs = oovM.vs ∧ (extendMatch oovE oovM).ve = oovM.ve :=
  (extendMatch_never_shrinks oovE oovM).2.2.2.2 (by decide) (by decide)

/-! ## Claim C6 -/

/-- A character of a joined string comes from one of its pieces. -/
theorem mem_of_mem_join {c : Char} {l : List String} (h : c ∈ (String.join l).toList) :
    ∃ s ∈ l, c ∈ s.toList := by
  have : (String.join l).toList = (l.map String.data).flatten := String.data_join l
  rw [this] at h
  obtain ⟨d, hd, hc⟩ := List.mem_flatten.1 h
  obtain ⟨s, hs, rfl⟩ := List.mem_map.1 hd
  exact ⟨s, hs, hc⟩

/-- C6.  For `LevenshteinPhoneticExtender._score`: if either span has the
OOV marker among the characters it would score (the window of the last
`L` phoneme characters forward, first `L` backward), the score is `-1`
(in fact the code forces `-1` whenever the marker occurs anywhere in a
span); and a `-1` seed score, being below any threshold `θ > -1`,
terminates extension in that direction immediately, returning the spans
unchanged — ordinary control flow, not an error.  The hypotheses
`hcleanU`/`hcleanV` say real phonemes do not contain the private-use
marker character (true of any actual sound table). -/
theorem phonetic_oov_minus_one_and_terminates
    (tbl : SoundTable) (L : Nat) (θ : Rat) (m : Match)
    (hcleanU : ∀ s ∈ getAllPhonemes tbl m.utoks, oovChar ∈ s.toList → s = oovPhonemes)
    (hcleanV : ∀ s ∈ getAllPhonemes tbl m.vtoks, oovChar ∈ s.toList → s = oovPhonemes)
    (hθ : -1 < θ) :
    (∀ rev, (oovChar ∈ windowChars tbl L m.utoks rev ∨ oovChar ∈ windowChars tbl L m.vtoks rev) →
      phoneticScore tbl L m.utoks m.vtoks rev = -1) ∧
    (phoneticScore tbl L m.utoks m.vtoks false = -1 →
      ((extendFwd (Extender.mk θ L (phoneticScore tbl L)) m).ue = m.ue ∧
        (extendFwd (Extender.mk θ L (phoneticScore tbl L)) m).ve = m.ve)) ∧
    (phoneticScore tbl L m.utoks m.vtoks true = -1 →
      ((extendRev (Extender.mk θ L (phoneticScore tbl L)) m).us = m.us ∧
        (extendRev (Extender.mk θ L (phoneticScore tbl L)) m).vs = m.vs)) := by
  refine ⟨?_, ?_, ?_⟩
  · intro rev hw
    have hoov : oovPhonemes ∈ getAllPhonemes tbl m.utoks ∨
        oovPhonemes ∈ getAllPhonemes tbl m.vtoks := by
      rcases hw with hu | hv
      · refine Or.inl ?_
        have hc : oovChar ∈ (String.join (getAllPhonemes tbl m.utoks)).toList := by
          rcases rev with _ | _ <;>
            simp only [windowChars, pyTakeLast, if_true, if_false, Bool.false_eq_true] at hu
          · exact List.drop_subset _ _ hu
          · exact List.take_subset _ _ hu
        obtain ⟨s, hs, hcs⟩ := mem_of_mem_join hc
        exact (hcleanU s hs hcs) ▸ hs
      · refine Or.inr ?_
        have hc : oovChar ∈ (String.join (getAllPhonemes tbl m.vtoks)).toList := by
          rcases rev with _ | _ <;>
            simp only [windowChars, pyTakeLast, if_true, if_false, Bool.false_eq_true] at hv
          · exact List.drop_subset _ _ hv
          · exact List.take_subset _ _ hv
        obtain ⟨s, hs, hcs⟩ := mem_of_mem_join hc
        exact (hcleanV s hs hcs) ▸ hs
    simp only [phoneticScore, if_pos hoov]
  · intro hm1
    have hstop : ¬ ((Extender.mk θ L (phoneticScore tbl L)).threshold ≤
        scoreAt (Extender.mk θ L (phoneticScore tbl L)) m m.us m.ue m.vs m.ve false) := by
      have : scoreAt (Extender.mk θ L (phoneticScore tbl L)) m m.us m.ue m.vs m.ve false = -1 := hm1
      rw [this]
      exact not_le_of_lt hθ
    simp [extendFwd, extFwdGo_stop _ _ _ _ _ _ _ hstop]
  · intro hm1
    have hstop : ¬ ((Extender.mk θ L (phoneticScore tbl L)).threshold ≤
        scoreAt (Extender.mk θ L (phoneticScore tbl L)) m m.us m.ue m.vs m.ve true) := by
      have : scoreAt (Extender.mk θ L (phoneticScore tbl L)) m m.us m.ue m.vs m.ve true = -1 := hm1
      rw [this]
      exact not_le_of_lt hθ
    simp [extendRev, extRevGo_stop _ _ _ _ _ _ _ hstop]

/-- C6 (witness): with the table knowing only `a`, `b`, the span `ax`
contains the OOV token `x`; the score is `-1` and the forward pass leaves
the bounds alone. -/
theorem phonetic_oov_minus_one_and_terminates_witness :
    phoneticScore witC6tbl 50 witC6M.utoks witC6M.vtoks false = -1 ∧
    (extendFwd (Extender.mk (mkRat 7 10) 50 (phoneticScore witC6tbl 50)) witC6M).ue = witC6M.ue := by
  have h := phonetic_oov_minus_one_and_terminates witC6tbl 50 (mkRat 7 10) witC6M
    (by decide) (by decide) (by decide)
  have hs : phoneticScore witC6tbl 50 witC6M.utoks witC6M.vtoks false = -1 :=
    h.1 false (Or.inl (by decide))
  exact ⟨hs, (h.2.1 hs).1⟩

/-! ## Claim C7 -/

/-- C7 (counterexample).  The claim says `are_graphic_variants` is true
iff all tokens are in the table, share one phoneme tuple, and their texts
are *not all identical*.  With tokens `a`, `a`, `b` (all in the table,
one shared phoneme tuple, texts not all identical) the code returns
`false`, because it compares every later token's text against the first
token's text only. -/
theorem areGraphicVariants_cex :
    areGraphicVariants cexC7tbl (charToken 'a') [charToken 'a', charToken 'b'] = false ∧
    specGraphicVariants cexC7tbl (charToken 'a') [charToken 'a', charToken 'b'] = true := by
  decide

/-- C7 (amended).  `are_graphic_variants(t0, …)` is true iff the first
token's phoneme tuple exists (not OOV, not non-voiced), and every later
token has that same phoneme tuple and a surface text different from the
*first* token's text.  (Later tokens may repeat each other's texts; a
later token equal in text to the first makes the result false even when
the texts are not all identical.) -/
theorem areGraphicVariants_iff (tbl : SoundTable) (t0 : Token) (rest : List Token) :
    areGraphicVariants tbl t0 rest = true ↔
      (getTokenPhonemes tbl t0 ≠ emptyPhonemes tbl ∧
        getTokenPhonemes tbl t0 ≠ [some oovPhonemes] ∧
        ∀ t ∈ rest, getTokenPhonemes tbl t = getTokenPhonemes tbl t0 ∧ t.text ≠ t0.text) := by
  simp only [areGraphicVariants]
  by_cases hb : getTokenPhonemes tbl t0 = emptyPhonemes tbl ∨
      getTokenPhonemes tbl t0 = [some oovPhonemes]
  · rw [if_pos hb]
    simp only [Bool.false_eq_true, false_iff]
    rintro ⟨h1, h2, _⟩
    rcases hb with hb | hb
    · exact h1 hb
    · exact h2 hb
  · rw [if_neg hb]
    push_neg at hb
    simp only [List.all_eq_true, decide_eq_true_eq]
    constructor
    · intro h
      refine ⟨hb.1, hb.2, fun t ht => ?_⟩
      have := h t ht
      push_neg at this
      exact ⟨this.2.2.1, this.2.2.2⟩
    · intro h t ht
      push_neg
      obtain ⟨hph, htx⟩ := h.2.2 t ht
      exact ⟨hph ▸ hb.1, hph ▸ hb.2, hph, htx⟩

/-! ## Claim C8 -/

/-- C8 (counterexample).  On a non-empty two-token document with `n = 4`
the code yields one (clamped) window, while the claim's window count
`max(0, |doc| - n + 1)` is zero. -/
theorem getDocNgrams_count_cex :
    (getDocNgrams cexC8doc 4).length = 1 ∧
    (max (0 : Int) ((cexC8doc.length : Int) - 4 + 1)) = 0 := by decide

/-- C8 (amended).  `ngrams(doc, n)` yields no window for an empty doc;
for a non-empty doc it yields the windows `doc[i : i+n]` for
`i ∈ [0, max(1, |doc| - n + 1))` — that is, `|doc| - n + 1` windows when
`n ≤ |doc|`, and exactly one window, the whole (clamped) document, when
`0 < |doc| < n`. -/
theorem getDocNgrams_spec (doc : List Token) (n : Nat) :
    (doc = [] → getDocNgrams doc n = []) ∧
    (1 ≤ doc.length →
      (getDocNgrams doc n).length = max (doc.length - n + 1) 1 ∧
      ∀ i, i < max (doc.length - n + 1) 1 →
        (getDocNgrams doc n).get? i = some (pySlice doc i (i + n))) ∧
    (1 ≤ doc.length → doc.length < n → getDocNgrams doc n = [doc]) := by
  refine ⟨?_, ?_, ?_⟩
  · rintro rfl; simp [getDocNgrams]
  · intro hlen
    have hne : ¬ doc.length = 0 := by omega
    constructor
    · simp [getDocNgrams, hne]
    · intro i hi
      simp only [getDocNgrams, if_neg hne]
      rw [List.get?_eq_getElem?, List.getElem?_map, List.getElem?_range hi]
      rfl
  · intro hlen hshort
    have hne : ¬ doc.length = 0 := by omega
    have hm : max (doc.length - n + 1) 1 = 1 := by omega
    have hslice : pySlice doc 0 (0 + n) = doc := by
      simp only [pySlice, List.drop_zero, Nat.zero_add]
      exact List.take_of_length_le (le_of_lt hshort)
    simp only [getDocNgrams, if_neg hne, hm]
    rw [show List.range 1 = [0] from rfl]
    simp only [List.map_cons, List.map_nil, hslice]

/-- C8 (witness): the empty document yields no windows; the two-token
document with `n = 4` yields exactly the single clamped window (the whole
document); a five-token document with `n = 2` yields four windows, the
second being `doc[1:3]`. -/
theorem getDocNgrams_spec_witness :
    getDocNgrams ([] : List Token) 4 = [] ∧
    getDocNgrams cexC8doc 4 = [cexC8doc] ∧
    (getDocNgrams (mkCharDoc "abcde") 2).length = max (5 - 2 + 1) 1 ∧
    (getDocNgrams (mkCharDoc "abcde") 2).get? 1 =
      some (pySlice (mkCharDoc "abcde") 1 (1 + 2)) :=
  ⟨(getDocNgrams_spec [] 4).1 rfl,
   (getDocNgrams_spec cexC8doc 4).2.2 (by decide) (by decide),
   (by simpa using ((getDocNgrams_spec (mkCharDoc "abcde") 2).2.1 (by decide)).1),
   ((getDocNgrams_spec (mkCharDoc "abcde") 2).2.1 (by decide)).2 1 (by decide)⟩

/-! ## Claim C5 -/

/-- An empty Python slice `l[s:s]`. -/
theorem pySlice_self (l : List α) (s : Nat) : pySlice l s s = [] := by
  apply List.drop_eq_nil_of_le
  simp

/-- C5 (counterexample).  The claim says the aligner returns a Match with
empty aligned sequences and score 0 when Smith-Waterman finds no
positive-scoring region.  On a concrete match, with the empty alignment
result, the aligner instead fails (the trim loop evaluates `au[-1]` on an
empty list — an `IndexError` in the source). -/
theorem swAlignMatch_empty_cex : swAlignMatch asciiAlnum "-" emptySW cexC5M = none := by decide

/-- C5 (amended).  For every match and every `sw_align` outcome with an
empty aligned region, the source aligner raises instead of returning an
empty-aligned match: the embedded `__call__` returns `none`.  (The spec's
design notes §9 record this: the source uses an exception here and a port
should return the empty-aligned match.) -/
theorem swAlignMatch_empty_center (alnum : String → Bool) (gap : String) (m : Match)
    (lu ru lv rv : List String) (s : Rat) :
    swAlignMatch alnum gap
      { lu := lu, cu := [], ru := ru, lv := lv, cv := [], rv := rv, score := s } m = none := by
  simp only [swAlignMatch, List.length_nil, Nat.add_zero, pySlice_self, Nat.max_self]
  rfl

/-! ## Claim C9 -/

theorem storedUnder_idxInsert (idx : PhonIndex) (k : String) (v w : Nat × Nat) :
    StoredUnder (idxInsert idx k v) w ↔ StoredUnder idx w ∨ w = v := by
  unfold StoredUnder idxInsert
  by_cases h : (idx.find? (fun e => e.1 == k)).isSome
  · rw [if_pos h]
    constructor
    · rintro ⟨e', he', hw⟩
      obtain ⟨e, he, heq⟩ := List.mem_map.1 he'
      subst heq
      by_cases hk : e.1 == k
      · rw [if_pos hk] at hw
        rcases List.mem_append.1 hw with hw | hw
        · exact Or.inl ⟨e, he, hw⟩
        · exact Or.inr (List.mem_singleton.1 hw)
      · rw [if_neg hk] at hw
        exact Or.inl ⟨e, he, hw⟩
    · rintro (⟨e, he, hw⟩ | rfl)
      · by_cases hk : e.1 == k
        · exact ⟨(e.1, e.2 ++ [v]), List.mem_map.2 ⟨e, he, by rw [if_pos hk]⟩,
            List.mem_append_left _ hw⟩
        · exact ⟨e, List.mem_map.2 ⟨e, he, by rw [if_neg hk]⟩, hw⟩
      · obtain ⟨e, he, hpe⟩ := List.find?_isSome.1 h
        exact ⟨(e.1, e.2 ++ [w]), List.mem_map.2 ⟨e, he, by rw [if_pos hpe]⟩,
          List.mem_append_right _ (List.mem_singleton.2 rfl)⟩
  · rw [if_neg h]
    constructor
    · rintro ⟨e, he, hw⟩
      rcases List.mem_append.1 he with he | he
      · exact Or.inl ⟨e, he, hw⟩
      · rw [List.mem_singleton.1 he] at hw
        exact Or.inr (List.mem_singleton.1 hw)
    · rintro (⟨e, he, hw⟩ | rfl)
      · exact ⟨e, List.mem_append_left _ he, hw⟩
      · exact ⟨(k, [w]), List.mem_append_right _ (List.mem_singleton.2 rfl),
          List.mem_singleton.2 rfl⟩

theorem storedWithKey_idxInsert (idx : PhonIndex) (k : String) (v w : Nat × Nat)
    (kq : String) :
    StoredWithKey (idxInsert idx k v) w kq → StoredWithKey idx w kq ∨ (w = v ∧ kq = k) := by
  unfold StoredWithKey idxInsert
  by_cases h : (idx.find? (fun e => e.1 == k)).isSome
  · rw [if_pos h]
    rintro ⟨vs, hmem, hw⟩
    obtain ⟨e, he, heq⟩ := List.mem_map.1 hmem
    by_cases hk : e.1 == k
    · rw [if_pos hk] at heq
      have hk' : e.1 = k := by simpa using hk
      have h1 : kq = e.1 := congrArg Prod.fst heq.symm
      have h2 : vs = e.2 ++ [v] := congrArg Prod.snd heq.symm
      subst h2
      rcases List.mem_append.1 hw with hw | hw
      · exact Or.inl ⟨e.2, by rw [h1]; exact ⟨he, hw⟩⟩
      · exact Or.inr ⟨List.mem_singleton.1 hw, h1.trans hk'⟩
    · rw [if_neg hk] at heq
      exact Or.inl ⟨vs, heq ▸ he, hw⟩
  · rw [if_neg h]
    rintro ⟨vs, hmem, hw⟩
    rcases List.mem_append.1 hmem with hmem | hmem
    · exact Or.inl ⟨vs, hmem, hw⟩
    · have h1 : kq = k := congrArg Prod.fst (List.mem_singleton.1 hmem)
      have h2 : vs = [v] := congrArg Prod.snd (List.mem_singleton.1 hmem)
      subst h2
      exact Or.inr ⟨List.mem_singleton.1 hw, h1⟩

theorem storedUnder_foldIdx (tbl : SoundTable) (doc : List Token) :
    ∀ (vals : List (Nat × Nat)) (idx : PhonIndex) (w : Nat × Nat),
      StoredUnder (vals.foldl (fun ix sp => idxInsert ix (getKey tbl doc sp) sp) idx) w ↔
        StoredUnder idx w ∨ w ∈ vals := by
  intro vals
  induction vals with
  | nil => intro idx w; simp
  | cons sp rest ih =>
    intro idx w
    rw [List.foldl_cons, ih, storedUnder_idxInsert, List.mem_cons]
    tauto

theorem storedWithKey_foldIdx (tbl : SoundTable) (doc : List Token) :
    ∀ (vals : List (Nat × Nat)) (idx : PhonIndex) (w : Nat × Nat) (k : String),
      StoredWithKey (vals.foldl (fun ix sp => idxInsert ix (getKey tbl doc sp) sp) idx) w k →
        StoredWithKey idx w k ∨ (w ∈ vals ∧ k = getKey tbl doc w) := by
  intro vals
  induction vals with
  | nil => intro idx w k h; exact Or.inl h
  | cons sp rest ih =>
    intro idx w k h
    rw [List.foldl_cons] at h
    rcases ih _ _ _ h with h1 | h1
    · rcases storedWithKey_idxInsert _ _ _ _ _ h1 with h2 | h2
      · exact Or.inl h2
      · exact Or.inr ⟨by rw [h2.1]; exact List.mem_cons_self _ _, by rw [h2.1]; exact h2.2⟩
    · exact Or.inr ⟨List.mem_cons_of_mem _ h1.1, h1.2⟩

/-- A string whose character list is empty is the empty string. -/
theorem string_eq_empty_of_data {s : String} (h : s.data = []) : s = "" := by
  cases s with
  | mk d =>
    have hd : d = [] := h
    subst hd
    rfl

/-- Span-text alphabeticity is token-by-token alphabeticity, for a
non-empty token list with non-empty token texts. -/
theorem pyStrIsAlpha_join (A : Char → Bool) (toks : List Token)
    (hne : ∀ t ∈ toks, t.text ≠ "") (h0 : toks ≠ []) :
    pyStrIsAlpha A (String.join (toks.map (·.text))) =
      toks.all (fun t => pyStrIsAlpha A t.text) := by
  have hdata : (String.join (toks.map (·.text))).data =
      ((toks.map (·.text)).map String.data).flatten := String.data_join _
  rw [Bool.eq_iff_iff]
  simp only [pyStrIsAlpha, Bool.and_eq_true, Bool.not_eq_eq_eq_not, Bool.not_true,
    beq_eq_false_iff_ne, ne_eq, List.all_eq_true, String.toList]
  constructor
  · rintro ⟨hnem, hall⟩ t ht
    refine ⟨hne t ht, ?_⟩
    intro c hc
    apply hall
    rw [hdata]
    exact List.mem_flatten.2
      ⟨t.text.data, List.mem_map.2 ⟨t.text, List.mem_map.2 ⟨t, ht, rfl⟩, rfl⟩, hc⟩
  · intro h
    constructor
    · intro hjoin
      obtain ⟨t0, ht0⟩ := List.exists_mem_of_ne_nil toks h0
      have hfl : ((toks.map (·.text)).map String.data).flatten = [] := by
        rw [← hdata]
        exact congrArg String.data hjoin
      have ht0d : t0.text.data = [] :=
        (List.flatten_eq_nil_iff.1 hfl) _
          (List.mem_map.2 ⟨t0.text, List.mem_map.2 ⟨t0, ht0, rfl⟩, rfl⟩)
      exact hne t0 ht0 (string_eq_empty_of_data ht0d)
    · intro c hc
      rw [hdata] at hc
      obtain ⟨d, hd, hcd⟩ := List.mem_flatten.1 hc
      obtain ⟨s, hs, rfl⟩ := List.mem_map.1 hd
      obtain ⟨t, ht, rfl⟩ := List.mem_map.1 hs
      exact (h t ht).2 c hcd

/-- The OOV marker occurs among a span's phonemes exactly when some
(voiced) token of the span is out of vocabulary, provided real table
readings never contain the marker. -/
theorem oov_mem_getAllPhonemes (tbl : SoundTable) (toks : List Token)
    (hclean : ∀ e ∈ tbl, some oovPhonemes ∉ selectReading e.2) :
    oovPhonemes ∈ getAllPhonemes tbl toks ↔
      ∃ t ∈ toks, (t.isAlpha || t.likeNum) = true ∧ isTokenOOV tbl t = true := by
  unfold getAllPhonemes
  rw [List.mem_flatMap]
  constructor
  · rintro ⟨t, ht, hmem⟩
    have hmem2 : some oovPhonemes ∈ getTokenPhonemes tbl t := by
      have h1 := (List.mem_filter.1 hmem).1
      obtain ⟨a, ha, hab⟩ := List.mem_filterMap.1 h1
      cases a with
      | none => exact absurd hab (by simp)
      | some s =>
        have : s = oovPhonemes := by simpa using hab
        exact this ▸ ha
    refine ⟨t, ht, ?_⟩
    unfold getTokenPhonemes at hmem2
    by_cases halpha : ¬((t.isAlpha || t.likeNum) = true)
    · rw [if_pos halpha] at hmem2
      exact absurd (List.eq_of_mem_replicate hmem2) (by simp)
    · rw [if_neg halpha] at hmem2
      push_neg at halpha
      by_cases hoov : isTokenOOV tbl t = true
      · exact ⟨halpha, hoov⟩
      · rw [if_neg hoov] at hmem2
        exfalso
        obtain ⟨r, hr⟩ : ∃ r, tableLookup tbl t.text = some r := by
          cases hfind : tableLookup tbl t.text with
          | none =>
            unfold isTokenOOV at hoov
            rw [hfind] at hoov
            exact absurd rfl hoov
          | some r => exact ⟨r, rfl⟩
        rw [hr] at hmem2
        simp only [Option.getD_some] at hmem2
        unfold tableLookup at hr
        obtain ⟨e, he, he2⟩ := Option.map_eq_some'.1 hr
        have hemem : e ∈ tbl := List.mem_of_find?_eq_some he
        exact hclean e hemem (he2 ▸ hmem2)
  · rintro ⟨t, ht, hcond, hoov⟩
    refine ⟨t, ht, ?_⟩
    have hphon : getTokenPhonemes tbl t = [some oovPhonemes] := by
      unfold getTokenPhonemes
      rw [if_neg (by simp [hcond]), if_pos hoov]
    rw [hphon]
    decide

/-- N-gram spans of a document are non-empty and made of document
tokens. -/
theorem docNgramSpans_toks (doc : List Token) (n : Nat) (hn : 1 ≤ n) :
    ∀ sp ∈ docNgramSpans doc n, spanToks doc sp ≠ [] ∧ ∀ t ∈ spanToks doc sp, t ∈ doc := by
  intro sp hsp
  unfold docNgramSpans at hsp
  by_cases hlen : doc.length = 0
  · rw [if_pos hlen] at hsp; cases hsp
  · rw [if_neg hlen] at hsp
    obtain ⟨i, hi, rfl⟩ := List.mem_map.1 hsp
    have hirange := List.mem_range.1 hi
    rw [lt_max_iff] at hirange
    have hilen : i < doc.length := by omega
    constructor
    · have hlen2 : (spanToks doc (i, min (i + n) doc.length)).length =
          min (min (i + n) doc.length) doc.length - i := by
        simp [spanToks, pySlice]
      intro hnil
      rw [hnil] at hlen2
      simp only [List.length_nil] at hlen2
      omega
    · intro t ht
      exact List.take_subset _ _ (List.drop_subset _ _ ht)

/-- C9.  A document n-gram span is stored in the phonetic index (under
some key) iff all of its tokens are alphabetic and none is out of
vocabulary; and the only key it can be stored under is the concatenation
of its phoneme symbols.  Spans failing the test are under no key.
Hypotheses: `n ≥ 1`; the spaCy `is_alpha` attribute agrees with
per-character alphabeticity of the text; token texts are non-empty; real
table readings never contain the OOV marker. -/
theorem index_admission (A : Char → Bool) (tbl : SoundTable) (doc : List Token) (n : Nat)
    (hn : 1 ≤ n)
    (hA : ∀ t ∈ doc, t.isAlpha = pyStrIsAlpha A t.text)
    (hne : ∀ t ∈ doc, t.text ≠ "")
    (hclean : ∀ e ∈ tbl, some oovPhonemes ∉ selectReading e.2) :
    ∀ sp ∈ docNgramSpans doc n,
      (StoredUnder (indexDoc A tbl n [] doc) sp ↔
        ((∀ t ∈ spanToks doc sp, t.isAlpha = true) ∧
         (∀ t ∈ spanToks doc sp, isTokenOOV tbl t = false))) ∧
      (∀ k, StoredWithKey (indexDoc A tbl n [] doc) sp k → k = getKey tbl doc sp) := by
  intro sp hsp
  obtain ⟨htoksne, htokssub⟩ := docNgramSpans_toks doc n hn sp hsp
  have hnil : ¬ StoredUnder ([] : PhonIndex) sp := by rintro ⟨e, he, -⟩; cases he
  constructor
  · unfold indexDoc
    rw [storedUnder_foldIdx]
    constructor
    · rintro (habs | hmem)
      · exact absurd habs hnil
      · obtain ⟨-, hpred⟩ := List.mem_filter.1 hmem
        rw [Bool.and_eq_true] at hpred
        obtain ⟨halpha, hoovb⟩ := hpred
        rw [spanText, pyStrIsAlpha_join A _ (fun t ht => hne t (htokssub t ht)) htoksne,
          List.all_eq_true] at halpha
        have hallalpha : ∀ t ∈ spanToks doc sp, t.isAlpha = true := fun t ht => by
          rw [hA t (htokssub t ht)]; exact halpha t ht
        refine ⟨hallalpha, ?_⟩
        intro t ht
        by_contra hoov
        have hoovt : isTokenOOV tbl t = true := by
          revert hoov; cases isTokenOOV tbl t <;> simp
        have hmem2 : oovPhonemes ∈ getAllPhonemes tbl (spanToks doc sp) :=
          (oov_mem_getAllPhonemes tbl _ hclean).2
            ⟨t, ht, by rw [Bool.or_eq_true]; exact Or.inl (hallalpha t ht), hoovt⟩
        rw [Bool.not_eq_true', decide_eq_false_iff_not] at hoovb
        exact hoovb hmem2
    · rintro ⟨hall, hnoov⟩
      right
      rw [getVals, List.mem_filter]
      refine ⟨hsp, ?_⟩
      rw [Bool.and_eq_true]
      constructor
      · rw [spanText, pyStrIsAlpha_join A _ (fun t ht => hne t (htokssub t ht)) htoksne,
          List.all_eq_true]
        intro t ht
        rw [← hA t (htokssub t ht)]
        exact hall t ht
      · rw [Bool.not_eq_true', decide_eq_false_iff_not]
        rw [oov_mem_getAllPhonemes tbl _ hclean]
        rintro ⟨t, ht, -, hoovt⟩
        rw [hnoov t ht] at hoovt
        cases hoovt
  · intro k hk
    unfold indexDoc at hk
    rcases storedWithKey_foldIdx tbl doc _ _ _ _ hk with h1 | h1
    · obtain ⟨vs, hmem, -⟩ := h1; cases hmem
    · exact h1.2

/-- C9 (witness): in the two-token document `ab` with only `a` in the
table and `n = 1`, the span `a` is indexed and the span `b` (OOV) is
not. -/
theorem index_admission_witness :
    StoredUnder (indexDoc (fun c => c.isAlpha) witC9tbl 1 [] witC9doc) (0, 1) ∧
    ¬ StoredUnder (indexDoc (fun c => c.isAlpha) witC9tbl 1 [] witC9doc) (1, 2) := by
  have h := index_admission (fun c => c.isAlpha) witC9tbl witC9doc 1 (by decide)
    (by decide) (by decide) (by decide)
  constructor
  · exact ((h (0, 1) (by decide)).1).mpr ⟨by decide, by decide⟩
  · intro hst
    have h2 := ((h (1, 2) (by decide)).1).mp hst
    exact absurd (h2.2 (charToken 'b') (by decide)) (by decide)

/-! ## Claim C3 -/

theorem dedupKeepFirst_aux [DecidableEq α] :
    ∀ (l : List α) (acc : List α) (x : α),
      x ∈ l.foldl (fun acc x => if x ∈ acc then acc else acc ++ [x]) acc →
        x ∈ acc ∨ x ∈ l := by
  intro l
  induction l with
  | nil => intro acc x h; exact Or.inl h
  | cons y ys ih =>
    intro acc x h
    rw [List.foldl_cons] at h
    rcases ih _ _ h with h1 | h1
    · by_cases hy : y ∈ acc
      · rw [if_pos hy] at h1; exact Or.inl h1
      · rw [if_neg hy] at h1
        rcases List.mem_append.1 h1 with h2 | h2
        · exact Or.inl h2
        · exact Or.inr (List.mem_singleton.1 h2 ▸ List.mem_cons_self _ _)
    · exact Or.inr (List.mem_cons_of_mem _ h1)

theorem dedupKeepFirst_subset [DecidableEq α] (l : List α) :
    ∀ x ∈ dedupKeepFirst l, x ∈ l := by
  intro x h
  rcases dedupKeepFirst_aux l [] x h with h1 | h1
  · cases h1
  · exact h1

theorem foldl_dedup_ne_nil [DecidableEq α] :
    ∀ (l : List α) (acc : List α), acc ≠ [] →
      l.foldl (fun acc x => if x ∈ acc then acc else acc ++ [x]) acc ≠ [] := by
  intro l
  induction l with
  | nil => intro acc h; exact h
  | cons y ys ih =>
    intro acc h
    rw [List.foldl_cons]
    apply ih
    by_cases hy : y ∈ acc
    · rw [if_pos hy]; exact h
    · rw [if_neg hy]
      intro habs
      exact absurd (List.append_eq_nil.1 habs).2 (by simp)

theorem dedupKeepFirst_ne_nil [DecidableEq α] {l : List α} (h : l ≠ []) :
    dedupKeepFirst l ≠ [] := by
  obtain ⟨x, xs, rfl⟩ := List.exists_cons_of_ne_nil h
  unfold dedupKeepFirst
  rw [List.foldl_cons]
  apply foldl_dedup_ne_nil
  simp

theorem mem_insertLe (le : α → α → Bool) (x y : α) :
    ∀ l, y ∈ insertLe le x l ↔ y = x ∨ y ∈ l := by
  intro l
  induction l with
  | nil => simp [insertLe]
  | cons z zs ih =>
    simp only [insertLe]
    by_cases h : le x z
    · rw [if_pos h]; simp [List.mem_cons]
    · rw [if_neg h]
      simp only [List.mem_cons, ih]
      tauto

theorem mem_isortLe (le : α → α → Bool) : ∀ (l : List α) (y : α), y ∈ isortLe le l ↔ y ∈ l := by
  intro l
  induction l with
  | nil => simp [isortLe]
  | cons x xs ih =>
    intro y
    simp only [isortLe, mem_insertLe, List.mem_cons, ih]

theorem isortLe_ne_nil (le : α → α → Bool) {l : List α} (h : l ≠ []) : isortLe le l ≠ [] := by
  obtain ⟨x, hx⟩ := List.exists_mem_of_ne_nil l h
  exact List.ne_nil_of_mem ((mem_isortLe le l x).2 hx)

/-- The anchor of a `MatchGroup` built from a non-empty match list is one
of the endpoint keys of one of its members. -/
theorem mkMatchGroup_anchor (ms : List Match) (hne : ms ≠ []) :
    ∃ m ∈ (mkMatchGroup ms).members,
      ((mkMatchGroup ms).anchorDoc, (mkMatchGroup ms).anchorStart, (mkMatchGroup ms).anchorEnd)
          = uKey m ∨
      ((mkMatchGroup ms).anchorDoc, (mkMatchGroup ms).anchorStart, (mkMatchGroup ms).anchorEnd)
          = vKey m := by
  have hdne : dedupKeepFirst ms ≠ [] := dedupKeepFirst_ne_nil hne
  have hmemne : isortLe matchLe (dedupKeepFirst ms) ≠ [] := isortLe_ne_nil _ hdne
  obtain ⟨m0, hm0⟩ := List.exists_mem_of_ne_nil _ hmemne
  have hepsne : (isortLe matchLe (dedupKeepFirst ms)).flatMap matchEps ≠ [] :=
    List.ne_nil_of_mem (List.mem_flatMap.2
      ⟨m0, hm0, show ((m0.u, m0.us, m0.ue), String.join m0.au) ∈ matchEps m0 by
        simp [matchEps]⟩)
  have hspansne :
      isortLe epLe (dedupKeepFirst ((isortLe matchLe (dedupKeepFirst ms)).flatMap matchEps))
        ≠ [] :=
    isortLe_ne_nil _ (dedupKeepFirst_ne_nil hepsne)
  obtain ⟨a, rest, hcons⟩ := List.exists_cons_of_ne_nil hspansne
  have ha : a ∈ isortLe epLe
      (dedupKeepFirst ((isortLe matchLe (dedupKeepFirst ms)).flatMap matchEps)) := by
    rw [hcons]; exact List.mem_cons_self _ _
  have ha2 : a ∈ (isortLe matchLe (dedupKeepFirst ms)).flatMap matchEps :=
    dedupKeepFirst_subset _ _ ((mem_isortLe _ _ _).1 ha)
  obtain ⟨m, hm, hma⟩ := List.mem_flatMap.1 ha2
  have hanchor :
      ((mkMatchGroup ms).anchorDoc, (mkMatchGroup ms).anchorStart, (mkMatchGroup ms).anchorEnd)
        = (((isortLe epLe (dedupKeepFirst
            ((isortLe matchLe (dedupKeepFirst ms)).flatMap matchEps))).headD
              (("", 0, 0), "")).1) := rfl
  rw [hcons] at hanchor
  simp only [List.headD_cons] at hanchor
  refine ⟨m, hm, ?_⟩
  simp only [matchEps, List.mem_cons, List.mem_singleton, List.not_mem_nil, or_false] at hma
  rcases hma with rfl | rfl
  · exact Or.inl hanchor
  · exact Or.inr hanchor

theorem foldl_append_ne_nil {α} : ∀ (l : List (List α)) (s : List α), s ≠ [] →
    l.foldl (· ++ ·) s ≠ [] := by
  intro l
  induction l with
  | nil => intro s h; exact h
  | cons t ts ih =>
    intro s h
    rw [List.foldl_cons]
    exact ih _ (fun habs => h (List.append_eq_nil.1 habs).1)

/-- Every connected component produced from non-empty cliques is
non-empty. -/
theorem componentsOf_ne_nil :
    ∀ (buckets : List (List Match)) (comps : List (List Match)),
      (∀ c ∈ comps, c ≠ []) → (∀ b ∈ buckets, b ≠ []) →
      ∀ c ∈ buckets.foldl mergeStep comps, c ≠ [] := by
  intro buckets
  induction buckets with
  | nil => intro comps hc _ c hmem; exact hc c hmem
  | cons b bs ih =>
    intro comps hc hb c hmem
    rw [List.foldl_cons] at hmem
    refine ih _ ?_ (fun x hx => hb x (List.mem_cons_of_mem _ hx)) c hmem
    intro c2 hc2
    unfold mergeStep at hc2
    rcases List.mem_cons.1 hc2 with rfl | hrest
    · exact foldl_append_ne_nil _ _ (hb b (List.mem_cons_self _ _))
    · exact hc c2 (List.mem_filter.1 hrest).1

/-- C3 (amended).  Every group produced by `group()` anchors on the
endpoint (least by aligned text) of at least one of its members; each
member shares a bound with another member when the group is a multi-match
component, but a member's endpoints need not include the anchor. -/
theorem groupsOf_anchor (ms : List Match) :
    ∀ g ∈ groupsOf ms, ∃ m ∈ g.members,
      (g.anchorDoc, g.anchorStart, g.anchorEnd) = uKey m ∨
      (g.anchorDoc, g.anchorStart, g.anchorEnd) = vKey m := by
  intro g hg
  have hg2 := dedupKeepFirst_subset _ _ hg
  rcases List.mem_append.1 hg2 with h | h
  · obtain ⟨e, he, rfl⟩ := List.mem_map.1 h
    refine mkMatchGroup_anchor e.2 ?_
    have hlen := (List.mem_filter.1 he).2
    intro h0
    rw [h0] at hlen
    exact absurd hlen (by simp)
  · obtain ⟨c, hc, rfl⟩ := List.mem_map.1 h
    refine mkMatchGroup_anchor c ?_
    refine componentsOf_ne_nil _ [] (by simp) ?_ c hc
    intro b hb
    obtain ⟨e, he, rfl⟩ := List.mem_map.1 hb
    have hlen := (List.mem_filter.1 he).2
    rw [decide_eq_true_eq] at hlen
    intro h0
    rw [h0] at hlen
    simp at hlen

/-- C3 (witness): the anchor theorem applied to the concrete two-match
chain group. -/
theorem groupsOf_anchor_witness :
    ∃ m ∈ cexC3g.members,
      (cexC3g.anchorDoc, cexC3g.anchorStart, cexC3g.anchorEnd) = uKey m ∨
      (cexC3g.anchorDoc, cexC3g.anchorStart, cexC3g.anchorEnd) = vKey m :=
  groupsOf_anchor cexC3ms cexC3g (by decide)

/-- C3 (counterexample).  The claim says every member of every group has
an endpoint equal to the group's anchor key.  With two matches sharing
one bound `B = (d2, 0, 4)` (aligned texts `a`, `b` for the first match
and `b`, `c` for the second), `group()` produces a two-member group
anchored on `A = (d1, 0, 4)` (least aligned text `a`); the second match's
endpoints are `B` and `C = (d3, 5, 9)`, neither of which is the anchor. -/
theorem group_closure_cex :
    cexC3g ∈ groupsOf cexC3ms ∧ cexC3m2 ∈ cexC3g.members ∧
    uKey cexC3m2 ≠ (cexC3g.anchorDoc, cexC3g.anchorStart, cexC3g.anchorEnd) ∧
    vKey cexC3m2 ≠ (cexC3g.anchorDoc, cexC3g.anchorStart, cexC3g.anchorEnd) := by decide

/-! ## Claim C4 -/

theorem filterMap_getQ_range (l : List α) : (List.range l.length).filterMap l.get? = l := by
  induction l with
  | nil => rfl
  | cons x xs ih =>
    rw [List.length_cons, List.range_succ_eq_map, List.filterMap_cons]
    simp only [List.get?_cons_zero]
    rw [List.filterMap_map]
    have hcomp : ((x :: xs).get? ∘ (· + 1)) = xs.get? := funext fun i => rfl
    rw [hcomp, ih]

/-- Reading a list out in any valid set order is a permutation of it. -/
theorem applyPerm_perm (π : List Nat) (l : List α) (h : ValidPerm π l.length) :
    (applyPerm π l).Perm l := by
  unfold applyPerm
  have h2 := h.filterMap l.get?
  rw [filterMap_getQ_range] at h2
  exact h2

/-- C4 (amended).  Two runs over identical inputs produce the same
multiset of group records, but the order in which `group()`'s result set
is listed depends on the runtime's set iteration order, so the grouped
output need not be byte-identical across runs; outputs differing only in
that order are permutations of one another. -/
theorem groupedOutput_perm (ms : List Match) (p1 p2 : List Nat)
    (h1 : ValidPerm p1 (groupsOf ms).length) (h2 : ValidPerm p2 (groupsOf ms).length) :
    (groupedOutput ms p1).Perm (groupedOutput ms p2) :=
  (applyPerm_perm p1 _ h1).trans (applyPerm_perm p2 _ h2).symm

/-- C4 (witness): the permutation theorem at the concrete three-group
input and two concrete set orders. -/
theorem groupedOutput_perm_witness :
    (groupedOutput cexC3ms [0, 1, 2]).Perm (groupedOutput cexC3ms [1, 0, 2]) :=
  groupedOutput_perm cexC3ms [0, 1, 2] [1, 0, 2] (by decide) (by decide)

/-- C4 (counterexample).  The claim says two runs on identical inputs
produce byte-identical structured outputs, including the grouped output.
Both `[0,1,2]` and `[1,0,2]` are orders a Python run can list the group
set in (hash randomization changes it between processes), and the two
grouped outputs differ. -/
theorem run_order_cex :
    ValidPerm [0, 1, 2] (groupsOf cexC3ms).length ∧
    ValidPerm [1, 0, 2] (groupsOf cexC3ms).length ∧
    groupedOutput cexC3ms [0, 1, 2] ≠ groupedOutput cexC3ms [1, 0, 2] := by decide


/-! ## Claim C2 -/

/-- Unfolding: an empty todo list flushes the working queue. -/
theorem go_nil (ext : Match → Match) (w d : List Match) :
    extendMatchesGo ext [] w d = d ++ w := rfl

/-- Unfolding: with an empty working queue the current match starts a
new block. -/
theorem go_cons_nilw (ext : Match → Match) (cur : Match) (rest d : List Match) :
    extendMatchesGo ext (cur :: rest) [] d = extendMatchesGo ext rest [ext cur] d := rfl

/-- Unfolding: the three-way branch of the reducer loop. -/
theorem go_cons_consw (ext : Match → Match) (cur : Match) (rest : List Match)
    (w0 : Match) (ws d : List Match) :
    extendMatchesGo ext (cur :: rest) (w0 :: ws) d =
      if w0.ue ≤ cur.us then extendMatchesGo ext rest [ext cur] (d ++ (w0 :: ws))
      else if (w0 :: ws).any (fun w =>
          decide (w.vs ≤ cur.vs) && decide (cur.vs ≤ w.ve) && decide (cur.ve ≤ w.ve)) then
        extendMatchesGo ext rest (w0 :: ws) d
      else extendMatchesGo ext rest ((w0 :: ws) ++ [ext cur]) d := rfl

/-- The boolean skip test of the reducer is the `containsVC` relation. -/
theorem any_containsVC (working : List Match) (cur : Match) :
    (working.any (fun w =>
        decide (w.vs ≤ cur.vs) && decide (cur.vs ≤ w.ve) && decide (cur.ve ≤ w.ve)) = true)
      ↔ ∃ w ∈ working, containsVC w cur := by
  simp [List.any_eq_true, containsVC, and_assoc]

/-- Head projections reduce on cons cells. -/
theorem headUs_cons (m : Match) (l : List Match) : headUs (m :: l) = m.us := rfl

/-- Head projections reduce on cons cells. -/
theorem headUe_cons (m : Match) (l : List Match) : headUe (m :: l) = m.ue := rfl

/-- On matches of one document pair, `matchLe` is span-lexicographic
order with the weight as final tiebreaker. -/
theorem matchLe_iff (a b : Match) (hu : a.u = b.u) (hv : a.v = b.v) :
    matchLe a b = true ↔ MLe a b := by
  unfold matchLe MLe
  rw [if_neg (show ¬ a.u ≠ b.u from not_not_intro hu),
      if_neg (show ¬ a.v ≠ b.v from not_not_intro hv)]
  by_cases h1 : a.us = b.us
  · rw [if_neg (not_not_intro h1)]
    by_cases h2 : a.ue = b.ue
    · rw [if_neg (not_not_intro h2)]
      by_cases h3 : a.vs = b.vs
      · rw [if_neg (not_not_intro h3)]
        by_cases h4 : a.ve = b.ve
        · rw [if_neg (not_not_intro h4)]
          have hlt : ¬ spanLt a b := by simp only [spanLt]; omega
          have heq : spanEq a b := ⟨h1, h2, h3, h4⟩
          simp [hlt, heq]
        · rw [if_pos h4]
          have heq : ¬ spanEq a b := fun h => h4 h.2.2.2
          simp only [decide_eq_true_eq, heq, false_and, or_false, spanLt]
          omega
      · rw [if_pos h3]
        have heq : ¬ spanEq a b := fun h => h3 h.2.2.1
        simp only [decide_eq_true_eq, heq, false_and, or_false, spanLt]
        omega
    · rw [if_pos h2]
      have heq : ¬ spanEq a b := fun h => h2 h.2.1
      simp only [decide_eq_true_eq, heq, false_and, or_false, spanLt]
      omega
  · rw [if_pos h1]
    have heq : ¬ spanEq a b := fun h => h1 h.1
    simp only [decide_eq_true_eq, heq, false_and, or_false, spanLt]
    omega

/-- `MLe` is total. -/
theorem MLe_total (a b : Match) : MLe a b ∨ MLe b a := by
  by_cases h : spanEq a b
  · rcases le_total a.weight b.weight with h2 | h2
    · exact Or.inl (Or.inr ⟨h, h2⟩)
    · refine Or.inr (Or.inr ⟨?_, h2⟩)
      obtain ⟨e1, e2, e3, e4⟩ := h
      exact ⟨e1.symm, e2.symm, e3.symm, e4.symm⟩
  · have h2 : spanLt a b ∨ spanLt b a := by
      simp only [spanEq] at h; simp only [spanLt]; omega
    rcases h2 with h2 | h2
    · exact Or.inl (Or.inl h2)
    · exact Or.inr (Or.inl h2)

/-- `MLe` is transitive. -/
theorem MLe_trans {a b c : Match} (h1 : MLe a b) (h2 : MLe b c) : MLe a c := by
  rcases h1 with h1 | ⟨e1, w1⟩
  · rcases h2 with h2 | ⟨e2, w2⟩
    · refine Or.inl ?_
      simp only [spanLt] at h1 h2 ⊢; omega
    · refine Or.inl ?_
      obtain ⟨f1, f2, f3, f4⟩ := e2
      simp only [spanLt] at h1 ⊢; omega
  · rcases h2 with h2 | ⟨e2, w2⟩
    · refine Or.inl ?_
      obtain ⟨f1, f2, f3, f4⟩ := e1
      simp only [spanLt] at h2 ⊢; omega
    · refine Or.inr ⟨?_, le_trans w1 w2⟩
      obtain ⟨f1, f2, f3, f4⟩ := e1
      obtain ⟨g1, g2, g3, g4⟩ := e2
      exact ⟨f1.trans g1, f2.trans g2, f3.trans g3, f4.trans g4⟩

/-- Stable insertion preserves sortedness, given totality and
transitivity restricted to the elements involved. -/
theorem pairwise_insertLe (le : α → α → Bool) (x : α) :
    ∀ l, List.Pairwise (fun a b => le a b = true) l →
      (∀ y ∈ l, le x y = true ∨ le y x = true) →
      (∀ b ∈ l, ∀ c ∈ l, le x b = true → le b c = true → le x c = true) →
      List.Pairwise (fun a b => le a b = true) (insertLe le x l) := by
  intro l
  induction l with
  | nil => intro _ _ _; simp [insertLe]
  | cons y ys ih =>
    intro hpw htot htr
    simp only [insertLe]
    by_cases h : le x y = true
    · rw [if_pos h]
      refine List.pairwise_cons.mpr ⟨?_, hpw⟩
      intro z hz
      rcases List.mem_cons.mp hz with rfl | hz'
      · exact h
      · exact htr y (List.mem_cons_self y ys) z (List.mem_cons_of_mem y hz') h
          ((List.pairwise_cons.mp hpw).1 z hz')
    · rw [if_neg h]
      have hyx : le y x = true := by
        rcases htot y (List.mem_cons_self y ys) with h1 | h1
        · exact absurd h1 h
        · exact h1
      refine List.pairwise_cons.mpr ⟨?_, ?_⟩
      · intro z hz
        rcases (mem_insertLe le x z ys).mp hz with rfl | hz'
        · exact hyx
        · exact (List.pairwise_cons.mp hpw).1 z hz'
      · exact ih (List.pairwise_cons.mp hpw).2
          (fun a ha => htot a (List.mem_cons_of_mem y ha))
          (fun b hb c hc => htr b (List.mem_cons_of_mem y hb) c (List.mem_cons_of_mem y hc))

/-- Insertion sort produces a sorted list, given totality and
transitivity on the input's elements. -/
theorem pairwise_isortLe (le : α → α → Bool) :
    ∀ l, (∀ a ∈ l, ∀ b ∈ l, le a b = true ∨ le b a = true) →
      (∀ a ∈ l, ∀ b ∈ l, ∀ c ∈ l, le a b = true → le b c = true → le a c = true) →
      List.Pairwise (fun a b => le a b = true) (isortLe le l) := by
  intro l
  induction l with
  | nil => intro _ _; simp [isortLe]
  | cons x xs ih =>
    intro htot htr
    simp only [isortLe]
    apply pairwise_insertLe
    · exact ih (fun a ha b hb => htot a (List.mem_cons_of_mem x ha) b (List.mem_cons_of_mem x hb))
        (fun a ha b hb c hc => htr a (List.mem_cons_of_mem x ha) b (List.mem_cons_of_mem x hb)
          c (List.mem_cons_of_mem x hc))
    · intro y hy
      exact htot x (List.mem_cons_self x xs) y
        (List.mem_cons_of_mem x ((mem_isortLe le xs y).mp hy))
    · intro b hb c hc
      exact htr x (List.mem_cons_self x xs) b
        (List.mem_cons_of_mem x ((mem_isortLe le xs b).mp hb)) c
        (List.mem_cons_of_mem x ((mem_isortLe le xs c).mp hc))

/-- Sorting a list that is already sorted returns it unchanged. -/
theorem isortLe_sorted_id (le : α → α → Bool) :
    ∀ l, List.Pairwise (fun a b => le a b = true) l → isortLe le l = l := by
  intro l
  induction l with
  | nil => intro _; rfl
  | cons x xs ih =>
    intro hpw
    simp only [isortLe]
    rw [ih (List.pairwise_cons.mp hpw).2]
    cases xs with
    | nil => rfl
    | cons y ys =>
      simp only [insertLe]
      rw [if_pos ((List.pairwise_cons.mp hpw).1 y (List.mem_cons_self y ys))]

/-- A freshly started block is valid when the extender is idempotent. -/
theorem blockOk_single (ext : Match → Match) (cur : Match)
    (hidem : ∀ m, ext (ext m) = ext m) : BlockOk ext [ext cur] := by
  simp only [BlockOk]
  refine ⟨?_, by simp, List.pairwise_singleton _ _⟩
  intro x hx
  simp only [List.mem_singleton] at hx
  subst hx
  exact hidem cur

/-- One reducer step inside a block: the current match neither flushes
nor is skipped, so it is appended to the working queue. -/
theorem go_step_within (ext : Match → Match) (p0 x : Match) (pre' suf rest d : List Match)
    (hblock : BlockOk ext (p0 :: (pre' ++ x :: suf))) :
    extendMatchesGo ext (x :: rest) (p0 :: pre') d
      = extendMatchesGo ext rest ((p0 :: pre') ++ [x]) d := by
  simp only [BlockOk] at hblock
  obtain ⟨hfix, htail, hpw⟩ := hblock
  have hx : x.us < p0.ue := htail x (by simp)
  have hpw' : List.Pairwise (fun a b => ¬ containsVC a b) ((p0 :: pre') ++ x :: suf) := by
    simpa [List.cons_append] using hpw
  have hnc : ∀ w ∈ p0 :: pre', ¬ containsVC w x :=
    fun w hw => (List.pairwise_append.mp hpw').2.2 w hw x (List.mem_cons_self x suf)
  rw [go_cons_consw]
  rw [if_neg (by omega : ¬ p0.ue ≤ x.us)]
  rw [if_neg (fun hc => by
    obtain ⟨w, hw, hcont⟩ := (any_containsVC _ _).mp hc
    exact hnc w hw hcont)]
  rw [hfix x (by simp)]

/-- Replaying a valid chain of blocks: feeding the remainder of the head
block plus the later blocks to the reducer loop, with the head block's
prefix as working queue, returns everything in order unchanged. -/
theorem go_replay (ext : Match → Match) :
    ∀ (bs : List (List Match)) (suf pre d : List Match), pre ≠ [] →
      ChainOk ext ((pre ++ suf) :: bs) →
      extendMatchesGo ext (suf ++ bs.flatten) pre d = d ++ (pre ++ suf) ++ bs.flatten := by
  intro bs
  induction bs with
  | nil =>
    intro suf
    induction suf with
    | nil =>
      intro pre d hpre _
      simp [go_nil]
    | cons x suf ihsuf =>
      intro pre d hpre hchain
      obtain ⟨p0, pre', rfl⟩ : ∃ p0 pre', pre = p0 :: pre' := by
        cases pre with
        | nil => exact absurd rfl hpre
        | cons a l => exact ⟨a, l, rfl⟩
      have hblock : BlockOk ext (p0 :: (pre' ++ x :: suf)) := by
        have h := hchain.1 _ (List.mem_cons_self _ _)
        simpa [List.cons_append] using h
      rw [List.cons_append, go_step_within ext p0 x pre' suf _ d hblock]
      have hch2 : ChainOk ext ((((p0 :: pre') ++ [x]) ++ suf) :: ([] : List (List Match))) := by
        simpa [List.append_assoc] using hchain
      rw [ihsuf ((p0 :: pre') ++ [x]) d (by simp) hch2]
      simp [List.append_assoc]
  | cons b bs2 ihbs =>
    intro suf
    induction suf with
    | nil =>
      intro pre d hpre hchain
      obtain ⟨p0, pre', rfl⟩ : ∃ p0 pre', pre = p0 :: pre' := by
        cases pre with
        | nil => exact absurd rfl hpre
        | cons a l => exact ⟨a, l, rfl⟩
      have hb : BlockOk ext b := hchain.1 b (List.mem_cons_of_mem _ (List.mem_cons_self b bs2))
      obtain ⟨c0, ctail, rfl⟩ : ∃ c0 ctail, b = c0 :: ctail := by
        cases b with
        | nil => simp [BlockOk] at hb
        | cons a l => exact ⟨a, l, rfl⟩
      have hfix : ext c0 = c0 := by
        simp only [BlockOk] at hb
        exact hb.1 c0 (List.mem_cons_self _ _)
      have hlink : p0.ue ≤ c0.us := by
        have h2 := (List.chain'_cons.mp hchain.2).1
        simpa [headUe, headUs, List.headD] using h2
      simp only [List.nil_append, List.flatten_cons, List.cons_append]
      rw [go_cons_consw, if_pos hlink, hfix]
      have hch2 : ChainOk ext (([c0] ++ ctail) :: bs2) := by
        refine ⟨?_, ?_⟩
        · intro bb hbb
          rcases List.mem_cons.mp hbb with rfl | hbb
          · simpa using hb
          · exact hchain.1 bb (List.mem_cons_of_mem _ (List.mem_cons_of_mem _ hbb))
        · have h2 := (List.chain'_cons.mp hchain.2).2
          simpa using h2
      rw [ihbs ctail [c0] (d ++ (p0 :: pre')) (by simp) hch2]
      simp [List.append_assoc]
    | cons x suf ihsuf =>
      intro pre d hpre hchain
      obtain ⟨p0, pre', rfl⟩ : ∃ p0 pre', pre = p0 :: pre' := by
        cases pre with
        | nil => exact absurd rfl hpre
        | cons a l => exact ⟨a, l, rfl⟩
      have hblock : BlockOk ext (p0 :: (pre' ++ x :: suf)) := by
        have h := hchain.1 _ (List.mem_cons_self _ _)
        simpa [List.cons_append] using h
      rw [List.cons_append, go_step_within ext p0 x pre' suf _ d hblock]
      have hch2 : ChainOk ext ((((p0 :: pre') ++ [x]) ++ suf) :: (b :: bs2)) := by
        simpa [List.append_assoc] using hchain
      rw [ihsuf ((p0 :: pre') ++ [x]) d (by simp) hch2]
      simp [List.append_assoc]

/-- A valid chain of blocks is a fixed point of the reducer loop. -/
theorem go_replay_top (ext : Match → Match) (bs : List (List Match))
    (hchain : ChainOk ext bs) :
    extendMatchesGo ext bs.flatten [] [] = bs.flatten := by
  cases bs with
  | nil => rfl
  | cons b bs2 =>
    have hb : BlockOk ext b := hchain.1 b (List.mem_cons_self b bs2)
    obtain ⟨c0, ctail, rfl⟩ : ∃ c0 ctail, b = c0 :: ctail := by
      cases b with
      | nil => simp [BlockOk] at hb
      | cons a l => exact ⟨a, l, rfl⟩
    have hfix : ext c0 = c0 := by
      simp only [BlockOk] at hb
      exact hb.1 c0 (List.mem_cons_self _ _)
    simp only [List.flatten_cons, List.cons_append]
    rw [go_cons_nilw, hfix]
    have hch2 : ChainOk ext (([c0] ++ ctail) :: bs2) := by
      refine ⟨?_, ?_⟩
      · intro bb hbb
        rcases List.mem_cons.mp hbb with rfl | hbb
        · simpa using hb
        · exact hchain.1 bb (List.mem_cons_of_mem _ hbb)
      · simpa using hchain.2
    rw [go_replay ext bs2 ctail [c0] [] (by simp) hch2]
    simp

/-- The last element of a list extended by one element. -/
theorem getLast_append_one (l : List α) (a : α) : (l ++ [a]).getLast? = some a := by
  induction l with
  | nil => rfl
  | cons x xs ih =>
    cases xs with
    | nil => rfl
    | cons y ys =>
      rw [List.cons_append, List.cons_append, List.getLast?_cons_cons]
      rw [List.cons_append] at ih
      exact ih

/-- Every reducer run decomposes into a valid chain of blocks: the loop
output is the concatenation of flushed blocks plus the final working
queue, and those blocks satisfy the chain invariant. -/
theorem go_chain (ext : Match → Match) (hpres : SpanPreserving ext)
    (hidem : ∀ m, ext (ext m) = ext m) :
    ∀ (todo w : List Match) (D : List (List Match)),
      (w = [] → D = []) →
      (w ≠ [] → ChainOk ext (D ++ [w])) →
      ∃ bs, extendMatchesGo ext todo w D.flatten = bs.flatten ∧ ChainOk ext bs := by
  intro todo
  induction todo with
  | nil =>
    intro w D hwD hch
    rw [go_nil]
    by_cases hw : w = []
    · subst hw
      rw [hwD rfl]
      exact ⟨[], by simp, ⟨by simp, List.chain'_nil⟩⟩
    · refine ⟨D ++ [w], ?_, hch hw⟩
      simp
  | cons cur rest ih =>
    intro w D hwD hch
    cases w with
    | nil =>
      rw [go_cons_nilw, hwD rfl]
      refine ih [ext cur] [] (by simp) ?_
      intro _
      refine ⟨?_, ?_⟩
      · intro b hb
        simp only [List.nil_append, List.mem_singleton] at hb
        subst hb
        exact blockOk_single ext cur hidem
      · simp
    | cons w0 ws =>
      rw [go_cons_consw]
      by_cases hflush : w0.ue ≤ cur.us
      · rw [if_pos hflush]
        have hold : ChainOk ext (D ++ [w0 :: ws]) := hch (by simp)
        have hD : List.flatten D ++ (w0 :: ws) = List.flatten (D ++ [w0 :: ws]) := by simp
        rw [hD]
        refine ih [ext cur] (D ++ [w0 :: ws]) (by simp) ?_
        intro _
        refine ⟨?_, ?_⟩
        · intro b hb
          rcases List.mem_append.mp hb with hb | hb
          · exact hold.1 b hb
          · simp only [List.mem_singleton] at hb
            subst hb
            exact blockOk_single ext cur hidem
        · refine List.Chain'.append hold.2 (List.chain'_singleton _) ?_
          intro bx hbx cy hcy
          have hbx' : w0 :: ws = bx := by
            rw [getLast_append_one] at hbx
            simpa using hbx
          have hcy' : [ext cur] = cy := by simpa using hcy
          subst hbx'
          subst hcy'
          simp only [headUe_cons, headUs_cons]
          have h1 := (hpres cur).2.2.1
          omega
      · by_cases hskip : ((w0 :: ws).any fun w =>
            decide (w.vs ≤ cur.vs) && decide (cur.vs ≤ w.ve) && decide (cur.ve ≤ w.ve)) = true
        · rw [if_neg hflush, if_pos hskip]
          exact ih (w0 :: ws) D hwD hch
        · rw [if_neg hflush, if_neg hskip]
          refine ih ((w0 :: ws) ++ [ext cur]) D (by simp) ?_
          intro _
          have hold : ChainOk ext (D ++ [w0 :: ws]) := hch (by simp)
          have hbOld : BlockOk ext (w0 :: ws) := hold.1 (w0 :: ws) (by simp)
          simp only [BlockOk] at hbOld
          obtain ⟨hfix, htail, hpw⟩ := hbOld
          refine ⟨?_, ?_⟩
          · intro b hb
            rcases List.mem_append.mp hb with hb | hb
            · exact hold.1 b (List.mem_append_left _ hb)
            · simp only [List.mem_singleton] at hb
              subst hb
              simp only [List.cons_append, BlockOk]
              refine ⟨?_, ?_, ?_⟩
              · intro x hx
                rcases List.mem_cons.mp hx with rfl | hx
                · exact hfix _ (List.mem_cons_self _ _)
                · rcases List.mem_append.mp hx with hx | hx
                  · exact hfix x (List.mem_cons_of_mem _ hx)
                  · simp only [List.mem_singleton] at hx
                    subst hx
                    exact hidem cur
              · intro x hx
                rcases List.mem_append.mp hx with hx | hx
                · exact htail x hx
                · simp only [List.mem_singleton] at hx
                  subst hx
                  have h1 := (hpres cur).2.2.1
                  omega
              · rw [← List.cons_append]
                refine List.pairwise_append.mpr ⟨hpw, List.pairwise_singleton _ _, ?_⟩
                intro a ha b hb
                simp only [List.mem_singleton] at hb
                subst hb
                intro hcont
                apply hskip
                refine (any_containsVC _ _).mpr ⟨a, ha, ?_⟩
                obtain ⟨h1, h2, h3⟩ := hcont
                obtain ⟨_, _, _, _, hvs, hve⟩ := hpres cur
                rw [hvs] at h1 h2
                rw [hve] at h3
                exact ⟨h1, h2, h3⟩
          · have hc2 := hold.2
            rw [List.chain'_append] at hc2
            obtain ⟨hcD, _, hlink⟩ := hc2
            refine List.chain'_append.mpr ⟨hcD, List.chain'_singleton _, ?_⟩
            intro x hx y hy
            have hy' : w0 :: (ws ++ [ext cur]) = y := by simpa using hy
            subst hy'
            have h2 := hlink x hx (w0 :: ws) (by simp)
            simp only [headUs_cons] at h2
            simpa [List.cons_append, headUs_cons] using h2

/-- The reducer's first pass emits a `matchLe`-sorted list when the todo
list is sorted, all matches are on one document pair with non-empty
spans, and the extender preserves spans. -/
theorem go_sorted (ext : Match → Match) (U V : String) (hpres : SpanPreserving ext) :
    ∀ (todo w d : List Match),
      List.Pairwise (fun a b => matchLe a b = true) todo →
      (∀ t ∈ todo, samePair U V t ∧ neSpans t) →
      (∀ x ∈ d ++ w, samePair U V x ∧ neSpans x) →
      List.Pairwise (fun a b => matchLe a b = true) (d ++ w) →
      (∀ x ∈ d ++ w, ∀ t ∈ todo, spanLe x t) →
      (w ≠ [] → ∀ t ∈ todo, headUs w ≤ t.us) →
      (w = [] → d = []) →
      (∀ x ∈ d, x.us < headUs w) →
      (∀ x ∈ w, x.us < headUe w) →
      List.Pairwise (fun a b => matchLe a b = true) (extendMatchesGo ext todo w d) := by
  intro todo
  induction todo with
  | nil =>
    intro w d _ _ _ hsort _ _ _ _ _
    rw [go_nil]
    exact hsort
  | cons cur rest ih =>
    intro w d hpwT hT hstore hsort hspanle hhead hwd hdus hwus
    obtain ⟨hpwT1, hpwT2⟩ := List.pairwise_cons.mp hpwT
    have hcurP := hT cur (List.mem_cons_self _ _)
    obtain ⟨heu, hev, heus, heue, hevs, heve⟩ := hpres cur
    have hcu : cur.u = U := hcurP.1.1
    have hcv : cur.v = V := hcurP.1.2
    have hecurP : samePair U V (ext cur) ∧ neSpans (ext cur) := by
      have h3 := hcurP.2
      refine ⟨⟨heu.trans hcu, hev.trans hcv⟩, ?_⟩
      simp only [neSpans] at h3 ⊢
      omega
    have hMLeT : ∀ t ∈ rest, MLe cur t := by
      intro t ht
      have h := hT t (List.mem_cons_of_mem _ ht)
      exact (matchLe_iff cur t (by rw [hcu, h.1.1]) (by rw [hcv, h.1.2])).mp (hpwT1 t ht)
    have hUsLeT : ∀ t ∈ rest, cur.us ≤ t.us := by
      intro t ht
      rcases hMLeT t ht with h | h
      · simp only [spanLt] at h; omega
      · have h2 := h.1
        simp only [spanEq] at h2; omega
    have hspanLeT : ∀ t ∈ rest, spanLe (ext cur) t := by
      intro t ht
      rcases hMLeT t ht with h | h
      · refine Or.inl ?_
        simp only [spanLt] at h ⊢
        omega
      · refine Or.inr ?_
        have h2 := h.1
        simp only [spanEq] at h2 ⊢
        omega
    have hMleE : ∀ x, samePair U V x → x.us < cur.us → matchLe x (ext cur) = true := by
      intro x hx hlt
      refine (matchLe_iff x (ext cur) (by rw [hx.1, heu, hcu]) (by rw [hx.2, hev, hcv])).mpr ?_
      refine Or.inl ?_
      simp only [spanLt]
      omega
    cases w with
    | nil =>
      have hd : d = [] := hwd rfl
      subst hd
      rw [go_cons_nilw]
      refine ih [ext cur] [] hpwT2 (fun t ht => hT t (List.mem_cons_of_mem _ ht))
        ?_ ?_ ?_ ?_ ?_ ?_ ?_
      · intro x hx
        simp only [List.nil_append, List.mem_singleton] at hx
        subst hx
        exact hecurP
      · simp only [List.nil_append]
        exact List.pairwise_singleton _ _
      · intro x hx t ht
        simp only [List.nil_append, List.mem_singleton] at hx
        subst hx
        exact hspanLeT t ht
      · intro _ t ht
        simp only [headUs_cons]
        have := hUsLeT t ht
        omega
      · intro _
        rfl
      · intro x hx
        exact absurd hx (List.not_mem_nil x)
      · intro x hx
        simp only [List.mem_singleton] at hx
        subst hx
        simp only [headUe_cons]
        have h3 := hcurP.2
        simp only [neSpans] at h3
        omega
    | cons w0 ws =>
      have hw0 := hstore w0 (List.mem_append_right _ (List.mem_cons_self _ _))
      have hw0ns := hw0.2
      simp only [neSpans] at hw0ns
      have hltAll : ∀ x ∈ d ++ (w0 :: ws), samePair U V x := fun x hx => (hstore x hx).1
      rw [go_cons_consw]
      by_cases hflush : w0.ue ≤ cur.us
      · rw [if_pos hflush]
        have hxlt : ∀ x ∈ d ++ (w0 :: ws), x.us < cur.us := by
          intro x hx
          rcases List.mem_append.mp hx with hx | hx
          · have h1 := hdus x hx
            simp only [headUs_cons] at h1
            omega
          · have h1 := hwus x hx
            simp only [headUe_cons] at h1
            omega
        have hmle : ∀ x ∈ d ++ (w0 :: ws), matchLe x (ext cur) = true :=
          fun x hx => hMleE x (hltAll x hx) (hxlt x hx)
        refine ih [ext cur] (d ++ (w0 :: ws)) hpwT2
          (fun t ht => hT t (List.mem_cons_of_mem _ ht)) ?_ ?_ ?_ ?_ ?_ ?_ ?_
        · intro x hx
          rcases List.mem_append.mp hx with hx | hx
          · exact hstore x hx
          · simp only [List.mem_singleton] at hx
            subst hx
            exact hecurP
        · refine List.pairwise_append.mpr ⟨hsort, List.pairwise_singleton _ _, ?_⟩
          intro a ha b hb
          simp only [List.mem_singleton] at hb
          subst hb
          exact hmle a ha
        · intro x hx t ht
          rcases List.mem_append.mp hx with hx | hx
          · exact hspanle x hx t (List.mem_cons_of_mem _ ht)
          · simp only [List.mem_singleton] at hx
            subst hx
            exact hspanLeT t ht
        · intro _ t ht
          simp only [headUs_cons]
          have := hUsLeT t ht
          omega
        · intro h
          simp at h
        · intro x hx
          simp only [headUs_cons]
          have := hxlt x hx
          omega
        · intro x hx
          simp only [List.mem_singleton] at hx
          subst hx
          simp only [headUe_cons]
          have h3 := hcurP.2
          simp only [neSpans] at h3
          omega
      · by_cases hskip : ((w0 :: ws).any fun w =>
            decide (w.vs ≤ cur.vs) && decide (cur.vs ≤ w.ve) && decide (cur.ve ≤ w.ve)) = true
        · rw [if_neg hflush, if_pos hskip]
          refine ih (w0 :: ws) d hpwT2 (fun t ht => hT t (List.mem_cons_of_mem _ ht))
            hstore hsort ?_ ?_ hwd hdus hwus
          · exact fun x hx t ht => hspanle x hx t (List.mem_cons_of_mem _ ht)
          · exact fun hne t ht => hhead hne t (List.mem_cons_of_mem _ ht)
        · rw [if_neg hflush, if_neg hskip]
          have hxlt : ∀ x ∈ d ++ (w0 :: ws), matchLe x (ext cur) = true := by
            intro x hx
            rcases List.mem_append.mp hx with hxd | hxw
            · have h1 := hdus x hxd
              simp only [headUs_cons] at h1
              have h2 := hhead (by simp) cur (List.mem_cons_self _ _)
              simp only [headUs_cons] at h2
              exact hMleE x (hltAll x hx) (by omega)
            · have h1 := hspanle x hx cur (List.mem_cons_self _ _)
              rcases h1 with h1 | h1
              · have hx1 := hltAll x hx
                refine (matchLe_iff x (ext cur) (by rw [hx1.1, heu, hcu])
                  (by rw [hx1.2, hev, hcv])).mpr ?_
                refine Or.inl ?_
                simp only [spanLt] at h1 ⊢
                omega
              · exfalso
                apply hskip
                refine (any_containsVC _ _).mpr ⟨x, hxw, ?_⟩
                have hxns := (hstore x hx).2
                simp only [neSpans] at hxns
                simp only [spanEq] at h1
                exact ⟨by omega, by omega, by omega⟩
          refine ih ((w0 :: ws) ++ [ext cur]) d hpwT2
            (fun t ht => hT t (List.mem_cons_of_mem _ ht)) ?_ ?_ ?_ ?_ ?_ ?_ ?_
          · intro x hx
            rcases List.mem_append.mp hx with hx | hx
            · exact hstore x (List.mem_append_left _ hx)
            · rcases List.mem_append.mp hx with hx | hx
              · exact hstore x (List.mem_append_right _ hx)
              · simp only [List.mem_singleton] at hx
                subst hx
                exact hecurP
          · rw [← List.append_assoc]
            refine List.pairwise_append.mpr ⟨hsort, List.pairwise_singleton _ _, ?_⟩
            intro a ha b hb
            simp only [List.mem_singleton] at hb
            subst hb
            exact hxlt a ha
          · intro x hx t ht
            rcases List.mem_append.mp hx with hx | hx
            · exact hspanle x (List.mem_append_left _ hx) t (List.mem_cons_of_mem _ ht)
            · rcases List.mem_append.mp hx with hx | hx
              · exact hspanle x (List.mem_append_right _ hx) t (List.mem_cons_of_mem _ ht)
              · simp only [List.mem_singleton] at hx
                subst hx
                exact hspanLeT t ht
          · intro _ t ht
            simp only [List.cons_append, headUs_cons]
            have h2 := hhead (by simp) t (List.mem_cons_of_mem _ ht)
            simp only [headUs_cons] at h2
            exact h2
          · intro h
            simp at h
          · intro x hx
            simp only [List.cons_append, headUs_cons]
            have h1 := hdus x hx
            simp only [headUs_cons] at h1
            exact h1
          · intro x hx
            simp only [List.cons_append, headUe_cons]
            rcases List.mem_append.mp hx with hx | hx
            · have h1 := hwus x hx
              simp only [headUe_cons] at h1
              exact h1
            · simp only [List.mem_singleton] at hx
              subst hx
              omega

/-- **C2 (amended).** The reducer `extend_matches` is idempotent for every
extender that preserves document ids and span bounds and is itself
idempotent, on any list of matches over a single document pair with
non-empty spans: its output, fed back in, is returned unchanged. The
literal claim — idempotence for the actual extender — fails, because the
extender does not preserve spans: rescoring a grown match from its new,
longer seed can grow it further on the second pass. -/
theorem extend_matches_idem (ext : Match → Match) (U V : String)
    (hpres : SpanPreserving ext) (hidem : ∀ m, ext (ext m) = ext m)
    (l : List Match) (hl : ∀ m ∈ l, samePair U V m ∧ neSpans m) :
    extendMatches ext (extendMatches ext l) = extendMatches ext l := by
  have hTot : ∀ a ∈ l, ∀ b ∈ l, matchLe a b = true ∨ matchLe b a = true := by
    intro a ha b hb
    have hab := matchLe_iff a b (by rw [(hl a ha).1.1, (hl b hb).1.1])
      (by rw [(hl a ha).1.2, (hl b hb).1.2])
    have hba := matchLe_iff b a (by rw [(hl b hb).1.1, (hl a ha).1.1])
      (by rw [(hl b hb).1.2, (hl a ha).1.2])
    rcases MLe_total a b with h | h
    · exact Or.inl (hab.mpr h)
    · exact Or.inr (hba.mpr h)
  have hTrans : ∀ a ∈ l, ∀ b ∈ l, ∀ c ∈ l, matchLe a b = true → matchLe b c = true →
      matchLe a c = true := by
    intro a ha b hb c hc h1 h2
    have hab := matchLe_iff a b (by rw [(hl a ha).1.1, (hl b hb).1.1])
      (by rw [(hl a ha).1.2, (hl b hb).1.2])
    have hbc := matchLe_iff b c (by rw [(hl b hb).1.1, (hl c hc).1.1])
      (by rw [(hl b hb).1.2, (hl c hc).1.2])
    have hac := matchLe_iff a c (by rw [(hl a ha).1.1, (hl c hc).1.1])
      (by rw [(hl a ha).1.2, (hl c hc).1.2])
    exact hac.mpr (MLe_trans (hab.mp h1) (hbc.mp h2))
  have hpwT := pairwise_isortLe matchLe l hTot hTrans
  have hTmem : ∀ t ∈ isortLe matchLe l, samePair U V t ∧ neSpans t :=
    fun t ht => hl t ((mem_isortLe matchLe l t).mp ht)
  have hO : List.Pairwise (fun a b => matchLe a b = true)
      (extendMatchesGo ext (isortLe matchLe l) [] []) :=
    go_sorted ext U V hpres (isortLe matchLe l) [] [] hpwT hTmem
      (by simp) (by simp) (by simp) (fun h => absurd rfl h) (fun _ => rfl) (by simp) (by simp)
  obtain ⟨bs, hbs, hchain⟩ := go_chain ext hpres hidem (isortLe matchLe l) [] []
    (fun _ => rfl) (fun h => absurd rfl h)
  simp only [List.flatten_nil] at hbs
  show extendMatchesGo ext
      (isortLe matchLe (extendMatchesGo ext (isortLe matchLe l) [] [])) [] []
    = extendMatchesGo ext (isortLe matchLe l) [] []
  rw [isortLe_sorted_id matchLe _ hO, hbs, go_replay_top ext bs hchain]

/-- Witness: the identity extender preserves spans and is idempotent, so
the reducer is idempotent on a concrete one-match list. -/
theorem extend_matches_idem_witness :
    extendMatches id (extendMatches id [witC2m]) = extendMatches id [witC2m] :=
  extend_matches_idem id "a" "b" (fun m => ⟨rfl, rfl, rfl, rfl, rfl, rfl⟩) (fun m => rfl)
    [witC2m] (fun m hm => by
      simp only [List.mem_singleton] at hm
      subst hm
      exact ⟨⟨rfl, rfl⟩, ⟨by decide, by decide⟩⟩)

set_option maxRecDepth 1000000 in
/-- The literal C2 claim fails on the real extender: applying the reducer
to its own output grows the surviving match further (the seed `ab@[2,4)`
of `pqabxm`/`pqabym` first extends to `[0,4)`, and a second pass extends
that to `[0,6)`), so the second application changes the list. -/
theorem extend_matches_idem_cex :
    extendMatches (extendMatch cexC2E) (extendMatches (extendMatch cexC2E) [cexC2M])
      ≠ extendMatches (extendMatch cexC2E) [cexC2M] := by decide

end Dphon
